import Mathlib

/-!
Verification development for the kryon-go-runtime KRB renderer core.

The Go sources are shallowly embedded: RenderElements live in a flat arena and
all parent/child/back-references are arena indices (the identification the
design notes of the documentation prescribe for the raw Go pointers into the
growable element slice).  Machine numerics: the uint8/uint16 fields are
modelled as Nat; the few float32 quantities that the verified claims touch are
modelled exactly (ℚ for the layout arithmetic, integer scaling for the border
clamp) and every such spot carries a comment explaining why the modelled
values coincide with the float32 computation of the source.
-/

/-- An RGBA color.  The source only ever compares the alpha channel against 0
(rl.Blank is the all-zero color, so the test c == rl.Blank || c.A == 0 of the
source is exactly a = 0) and copies whole color values, so the three color
channels are packed into one abstract rgb field. -/
structure Col where
  rgb : Nat
  a : Nat
deriving DecidableEq, Repr

/-- rl.Blank: the transparent all-zero color used as the unset sentinel. -/
def colBlank : Col := ⟨0, 0⟩

/-- Four-sided insets, order Top, Right, Bottom, Left as in the source arrays
BorderWidths and Padding. -/
structure Insets where
  top : Nat
  right : Nat
  bottom : Nat
  left : Nat
deriving DecidableEq, Repr

def insetsZero : Insets := ⟨0, 0, 0, 0⟩

/-- render.InvalidResourceIndex = 0xFF. -/
def invalidResourceIndex : Nat := 255

/-- UnsetTextAlignmentSentinel = 0xFF from the resolver source. -/
def unsetTextAlignmentSentinel : Nat := 255

/-- Modelled from the spec: krb.LayoutAlignStart.  The krb package is not part
of the analysed sources; the alignment enumeration only needs Start to be a
value different from the 0xFF sentinel, and the conventional encoding starts
at 0. -/
def layoutAlignStart : Nat := 0

/-- Modelled from the spec: krb.LayoutAlignCenter, any alignment value
different from Start and from the sentinel. -/
def layoutAlignCenter : Nat := 1

/-- Element type tags.  The krb package is not under the analysed sources;
the renderer only ever compares type tags for equality against the named
constructors, so the byte tag is modelled as an inductive with one
constructor per tag the renderer names, plus a catch-all for other bytes. -/
inductive ElemType where
  | app
  | container
  | text
  | image
  | button
  | input
  | other (tag : Nat)
deriving DecidableEq, Repr

/-- The resolved visual state of a RenderElement (the fields the style and
property resolver writes). -/
structure Vis where
  bg : Col
  fg : Col
  borderColor : Col
  borderWidths : Insets
  padding : Insets
  textAlign : Nat
  resolvedFontSize : Nat
  text : String
  resourceIndex : Nat
  isVisible : Bool
deriving DecidableEq, Repr

/-- The phase-1 initial visual state of PrepareTree (renderer_processing.go
lines 88-96): transparent colors, zero insets, the given initial text
alignment, visible, no resource, zero (unset) font size, empty text. -/
def visInit (ta : Nat) : Vis :=
  ⟨colBlank, colBlank, colBlank, insetsZero, insetsZero, ta, 0, "", invalidResourceIndex, true⟩

/-- A decoded KRB property.  The byte-level decoding helpers (getColorValue,
getByteValue, getShortValue, getEdgeInsetsValue — not under the analysed
sources) are abstracted away: each property carries its decoded payload, and
a property whose decode fails in the Go source (ok = false) is simply absent
from the list.  PropIDBorderWidth has two encodings in the source (a single
byte applied to all four sides, or edge insets), hence two constructors. -/
inductive KProp where
  | bgColor (c : Col)
  | fgColor (c : Col)
  | borderColor (c : Col)
  | borderWidthByte (w : Nat)
  | borderWidthEdges (e : Insets)
  | paddingEdges (e : Insets)
  | textAlignment (v : Nat)
  | visibility (b : Bool)
  | textContent (s : String)
  | imageSource (r : Nat)
  | fontSize (n : Nat)
deriving DecidableEq, Repr

/-- applyStylePropertiesToElement, one property (part_001 lines 97-143).
Text content and image source are not handled in the style path of the
source (they are picked up later by resolveElementTextAndImage). -/
def applyStylePropertyToElement (v : Vis) : KProp → Vis
  | .bgColor c => { v with bg := c }
  | .fgColor c => { v with fg := c }
  | .borderColor c => { v with borderColor := c }
  | .borderWidthByte w => { v with borderWidths := ⟨w, w, w, w⟩ }
  | .borderWidthEdges e => { v with borderWidths := e }
  | .paddingEdges e => { v with padding := e }
  | .textAlignment a => { v with textAlign := a }
  | .visibility b => { v with isVisible := b }
  | .textContent _ => v
  | .imageSource _ => v
  | .fontSize n => if 0 < n then { v with resolvedFontSize := n } else v

/-- applyStylePropertiesToElement (part_001 lines 97-143): plain left-to-right
assignment, a later property with the same ID wins. -/
def applyStylePropertiesToElement (props : List KProp) (v : Vis) : Vis :=
  props.foldl applyStylePropertyToElement v

/-- applyDirectPropertiesToElement, one property (part_001 lines 145-203):
like the style path plus text content and image source. -/
def applyDirectPropertyToElement (v : Vis) : KProp → Vis
  | .bgColor c => { v with bg := c }
  | .fgColor c => { v with fg := c }
  | .borderColor c => { v with borderColor := c }
  | .borderWidthByte w => { v with borderWidths := ⟨w, w, w, w⟩ }
  | .borderWidthEdges e => { v with borderWidths := e }
  | .paddingEdges e => { v with padding := e }
  | .textAlignment a => { v with textAlign := a }
  | .visibility b => { v with isVisible := b }
  | .textContent s => { v with text := s }
  | .imageSource r => { v with resourceIndex := r }
  | .fontSize n => if 0 < n then { v with resolvedFontSize := n } else v

/-- applyDirectPropertiesToElement (part_001 lines 145-203). -/
def applyDirectPropertiesToElement (props : List KProp) (v : Vis) : Vis :=
  props.foldl applyDirectPropertyToElement v

/-- Process-wide defaults the resolver reads from the window configuration. -/
structure RConfig where
  defaultFgColor : Col
  defaultBorderColor : Col
  defaultFontSize : Nat
deriving DecidableEq, Repr

/-! ## C10 — clampOpposingBorders (part_001 lines 1170-1186)

The overflow branch of the Go source computes
int(float32(borderA) / float32(borderA+borderB) * float32(totalSize)) with
borderA, borderB, totalSize nonnegative ints.  float32 is IEEE-754 binary32
and Go rounds every conversion and arithmetic operation to the nearest
representable value, ties to even.  A finite binary32 value is a dyadic
number m * 2^s with a 24-bit significand, represented below as a pair
(m, s) : ℤ × ℤ; rounding a nonnegative exact rational (p / q) * 2^e to
binary32 picks s so that the scaled value lies in [2^23, 2^24) and rounds the
scaled significand to the nearest integer, ties to even.  Subnormal and
infinite results do not arise here: every value of this pipeline lies between
2^-64 and 2^64 (the quotient of two nonzero operands bounded by the int
range, and their product), well inside the binary32 normal range, and the
zero operands are handled exactly.  Go's int(x) truncates toward zero, which
on the nonnegative values of this branch is floor. -/

/-- Binary logarithm on ℕ (⌊log2 n⌋ for n ≥ 1), fuel-structural so that the
kernel evaluates it; 128 halvings cover every value this file meets. -/
def nlog2Aux : Nat → Nat → Nat
  | 0, _ => 0
  | fuel + 1, n => if n ≤ 1 then 0 else nlog2Aux fuel (n / 2) + 1

def nlog2 (n : Nat) : Nat := nlog2Aux 128 n

/-- ⌊log2 (p / q)⌋ for positive naturals p, q: the candidate from the integer
logarithms is off by at most one and the exact cross-multiplied comparison
settles it. -/
def floorLog2Frac (p q : Nat) : Int :=
  let e0 : Int := (nlog2 p : Int) - (nlog2 q : Int)
  let ok : Bool :=
    if 0 ≤ e0 then decide (q * 2 ^ e0.toNat ≤ p) else decide (q ≤ p * 2 ^ (-e0).toNat)
  if ok then e0 else e0 - 1

/-- Round the nonnegative fraction N / D to the nearest integer, ties to
even. -/
def rne (N D : Nat) : Int :=
  let n0 := N / D
  let r := N % D
  if 2 * r < D then (n0 : Int)
  else if D < 2 * r then (n0 : Int) + 1
  else if n0 % 2 = 0 then (n0 : Int) else (n0 : Int) + 1

/-- Round the exact nonnegative rational (p / q) * 2^e to binary32: scale by
the power of two that puts the value in [2^23, 2^24) and round the scaled
significand to nearest, ties to even.  Zero operands give exact zero. -/
def roundF32Frac (p q : Nat) (e : Int) : Int × Int :=
  if p = 0 ∨ q = 0 then (0, 0)
  else
    let s : Int := floorLog2Frac p q + e - 23
    let d : Int := e - s
    let N : Nat := if 0 ≤ d then p * 2 ^ d.toNat else p
    let D : Nat := if 0 ≤ d then q else q * 2 ^ (-d).toNat
    (rne N D, s)

/-- Go's float32(n) conversion of a nonnegative int. -/
def f32OfNat (n : Nat) : Int × Int := roundF32Frac n 1 0

/-- Binary32 division of nonnegative operands: round the exact quotient
(m1 * 2^s1) / (m2 * 2^s2) = (m1 / m2) * 2^(s1 - s2). -/
def f32Div (x y : Int × Int) : Int × Int :=
  roundF32Frac x.1.toNat y.1.toNat (x.2 - y.2)

/-- Binary32 multiplication of nonnegative operands: round the exact product
(m1 * m2) * 2^(s1 + s2). -/
def f32Mul (x y : Int × Int) : Int × Int :=
  roundF32Frac (x.1 * y.1).toNat 1 (x.2 + y.2)

/-- Go's int(x) on a nonnegative binary32 value: truncation toward zero. -/
def f32TruncToInt (x : Int × Int) : Int :=
  if 0 ≤ x.2 then x.1 * 2 ^ x.2.toNat else (x.1.toNat / 2 ^ (-x.2).toNat : Nat)

/-- clampOpposingBorders (part_001 lines 1170-1186): (0, 0) for a nonpositive
extent; negative inputs clamped to 0; when the clamped sum exceeds the extent
the first border becomes int(float32(a) / float32(a+b) * float32(totalSize))
— computed in binary32 exactly as Go does — and the second the int remainder
totalSize - borderA. -/
def clampOpposingBorders (borderA borderB totalSize : Int) : Int × Int :=
  if totalSize ≤ 0 then (0, 0)
  else
    let a : Int := if borderA < 0 then 0 else borderA
    let b : Int := if borderB < 0 then 0 else borderB
    if totalSize < a + b then
      let fa := f32OfNat a.toNat
      let fs := f32OfNat (a + b).toNat
      let ft := f32OfNat totalSize.toNat
      let a2 := f32TruncToInt (f32Mul (f32Div fa fs) ft)
      (a2, totalSize - a2)
    else (a, b)

/-- C10 divergence: the claim promises a non-negative pair summing to at most
max(totalSize, 0), but at borderA = 16777219, borderB = 1,
totalSize = 16777219 the code returns (16777220, -1): float32(16777219)
rounds up to 16777220 (= 2^24 + 4, the tie between the two neighbouring
even-spaced binary32 values broken to the even significand), the sum
16777220 converts exactly, the quotient is exactly 1.0, the product is
float32(16777219) = 16777220.0 again, and int() of it exceeds totalSize, so
the remainder borderB is negative. -/
theorem clampOpposingBorders_negative_width :
    clampOpposingBorders 16777219 1 16777219 = (16777220, -1) ∧
    (clampOpposingBorders 16777219 1 16777219).2 < 0 ∧
    ¬ ((clampOpposingBorders 16777219 1 16777219).1 +
        (clampOpposingBorders 16777219 1 16777219).2 ≤ max 16777219 0 ∧
       0 ≤ (clampOpposingBorders 16777219 1 16777219).2) := by
  refine ⟨by decide, by decide, ?_⟩
  intro h
  exact absurd h.2 (by decide)

/-! ## C2 — growth of the flat element collection (renderer_processing.go
lines 74 and 396-411)

PrepareTree allocates the element slice with length = ElementCount and
capacity 2 * ElementCount; expandComponent appends each template element at
index nextMasterIndex, reallocating the backing array to capacity
cap * 2 + 20 whenever the index reaches the capacity.  A Go pointer into the
slice is modelled as a pair (generation, index): a reallocation copies the
elements into a fresh backing array (one more generation), and every pointer
captured earlier still addresses the previous generation, i.e. a stale copy
of the node rather than the live one. -/

structure ElementsBuf where
  len : Nat
  cap : Nat
  gen : Nat
deriving DecidableEq, Repr

/-- A captured reference to a node: the backing-array generation it points
into and the element index. -/
structure NodeRef where
  gen : Nat
  idx : Nat
deriving DecidableEq, Repr

/-- PrepareTree line 74: make([]render.RenderElement, n, n*2). -/
def makeElements (n : Nat) : ElementsBuf := ⟨n, 2 * n, 0⟩

/-- One template-element append of expandComponent (lines 396-411):
take the next master index, grow the backing array to cap * 2 + 20 when the
index reaches the capacity (a reallocation: the generation changes), then
extend the length past the new index.  Returns the grown buffer and the
reference under which the new element is handed out. -/
def appendTemplateElement (b : ElementsBuf) : ElementsBuf × NodeRef :=
  let idx := b.len
  let b1 := if b.cap ≤ idx then ElementsBuf.mk b.len (b.cap * 2 + 20) (b.gen + 1) else b
  let b2 := { b1 with len := idx + 1 }
  (b2, ⟨b2.gen, idx⟩)

/-- A sequence of template-element appends, as one component expansion
performs. -/
def appendTemplateElements : ElementsBuf → Nat → ElementsBuf
  | b, 0 => b
  | b, k + 1 => appendTemplateElements (appendTemplateElement b).1 k

/-- A previously handed-out reference still refers to the live node: it
points into the current backing array and within the current length. -/
abbrev refLive (b : ElementsBuf) (p : NodeRef) : Prop :=
  p.gen = b.gen ∧ p.idx < b.len

/-- C2 (code bug evaluated at the failing input): with an initial element
count of 1 (capacity 2), expanding a component that appends 2 template nodes
reallocates the backing array on the second append, after which the reference
to element 0 captured before the expansion (the instance pointer held by
PrepareTree, and every Parent and Children pointer recorded so far) no longer
refers to the live node: it addresses the stale pre-reallocation copy. -/
theorem expandComponent_growth_staleRef :
    refLive (makeElements 1) ⟨0, 0⟩ ∧
    ¬ refLive (appendTemplateElements (makeElements 1) 2) ⟨0, 0⟩ ∧
    (appendTemplateElements (makeElements 1) 2).gen ≠ (makeElements 1).gen := by
  refine ⟨by decide, by decide, by decide⟩

/-! ## C8 — template-root style resolution of expandComponent
(renderer_processing.go lines 1977-2007)

The analysed file carries two revisions of expandComponent; the cited one
(lines 1977-2007) implements the enhanced three-level resolution.  The other
revision (lines 513-517) implements only levels 2 and 3, which coincides with
the three-level resolution when no component recognizes a named-style custom
property (a recognized style id of 0 below).  The component-specific lookup
is the literal convention of the source: only the TabBar component recognizes
the custom property named bar_style; findStyleIDByName returns 0 when the
named style does not exist, and the source then falls through to the next
level. -/

/-- The component-specific recognized style id (lines 1979-1990): for a
TabBar instance carrying a nonempty bar_style custom property, the id the
style table gives that name (0 when the name is unknown); 0 for every other
component. -/
def recognizedComponentStyleID (compDefName : String) (barStyleProp : Option String)
    (styleIDByName : String → Nat) : Nat :=
  if compDefName = "TabBar" then
    match barStyleProp with
    | some s => if s ≠ "" then styleIDByName s else 0
    | none => 0
  else 0

/-- The final style id of the template root as expandComponent computes it
(lines 1977-2007): the staged resolution followed by the final header write,
which keeps the header's template-declared style id when the staged
resolution produced 0. -/
def expandComponentRootStyleID (compDefName : String) (barStyleProp : Option String)
    (styleIDByName : String → Nat) (instanceStyleID templateStyleID : Nat) : Nat :=
  let step1 := recognizedComponentStyleID compDefName barStyleProp styleIDByName
  let step2 := if step1 = 0 ∧ instanceStyleID ≠ 0 then instanceStyleID else step1
  let step3 := if step2 = 0 ∧ templateStyleID ≠ 0 then templateStyleID else step2
  if step3 ≠ 0 then step3 else templateStyleID

/-- The claim's precedence, written from its words: the component-specific
named style when the component recognizes one, else the placeholder's own
direct style id, else the template root's declared style id. -/
def claimedRootStyleID (recognizedStyleID instanceStyleID templateStyleID : Nat) : Nat :=
  if recognizedStyleID ≠ 0 then recognizedStyleID
  else if instanceStyleID ≠ 0 then instanceStyleID
  else templateStyleID

/-- The per-template-element styling of expandComponent, root and non-root
branch in one function (lines 1872 and 1959-2043, and 470-535 in the other
revision).  Every template element's header starts as a copy of its template
header, so its style id starts as the template-declared one; the root branch
overwrites it with the staged three-level resolution when that is nonzero
(lines 2005-2007), the non-root branch never touches it.  The style whose
properties are then applied is looked up by the element's (possibly
overwritten) style id — for a non-root element its own template style (lines
2033-2035) — followed by the direct properties: the instance's for the root
(lines 2018-2022), the element's own template direct properties for a
non-root element (line 2038).  styleTable stands for findStyle over the
document's style block. -/
def expandComponentElementStyling (styleTable : Nat → Option (List KProp))
    (isRoot : Bool) (compDefName : String) (barStyleProp : Option String)
    (styleIDByName : String → Nat) (instanceStyleID templateStyleID : Nat)
    (instanceDirectProps templateDirectProps : List KProp) (v : Vis) :
    Nat × Vis :=
  let finalID :=
    if isRoot then
      expandComponentRootStyleID compDefName barStyleProp styleIDByName
        instanceStyleID templateStyleID
    else templateStyleID
  let v1 := match styleTable finalID with
    | some ps => applyStylePropertiesToElement ps v
    | none => v
  let v2 := applyDirectPropertiesToElement
    (if isRoot then instanceDirectProps else templateDirectProps) v1
  (finalID, v2)

/-- The claim's words for a non-root template element: it keeps its own
declared style — the style id stays the template-declared one, the style
applied is that own style (independent of the instance and of any
component-recognized style), followed by the element's own template direct
properties. -/
def claimedChildStyling (styleTable : Nat → Option (List KProp))
    (templateStyleID : Nat) (templateDirectProps : List KProp) (v : Vis) :
    Nat × Vis :=
  (templateStyleID,
   applyDirectPropertiesToElement templateDirectProps
     (match styleTable templateStyleID with
      | some ps => applyStylePropertiesToElement ps v
      | none => v))

/-- C8: when a component instance is expanded, the template root's style id
is resolved with three-level precedence — (1) a component-specific named
style referenced through a custom property on the placeholder, if the
component recognizes one, then (2) the placeholder's own direct style id,
then (3) the template root's own declared style id — and every non-root
template element keeps its own declared style: its style id and the style it
applies are its template-declared ones, whatever the instance's style and
the component-specific lookup say. -/
theorem expandComponentStyleResolution_spec (styleTable : Nat → Option (List KProp))
    (compDefName : String) (barStyleProp : Option String)
    (styleIDByName : String → Nat) (instanceStyleID templateStyleID : Nat)
    (instanceDirectProps templateDirectProps : List KProp) (v : Vis) :
    (expandComponentElementStyling styleTable true compDefName barStyleProp
        styleIDByName instanceStyleID templateStyleID instanceDirectProps
        templateDirectProps v).1 =
      claimedRootStyleID
        (recognizedComponentStyleID compDefName barStyleProp styleIDByName)
        instanceStyleID templateStyleID ∧
    expandComponentElementStyling styleTable false compDefName barStyleProp
        styleIDByName instanceStyleID templateStyleID instanceDirectProps
        templateDirectProps v =
      claimedChildStyling styleTable templateStyleID templateDirectProps v := by
  constructor
  · show expandComponentRootStyleID compDefName barStyleProp styleIDByName
        instanceStyleID templateStyleID = _
    unfold expandComponentRootStyleID claimedRootStyleID
    set r := recognizedComponentStyleID compDefName barStyleProp styleIDByName with hr
    by_cases h1 : r = 0 <;> by_cases h2 : instanceStyleID = 0 <;>
      by_cases h3 : templateStyleID = 0 <;> simp [h1, h2, h3]
  · rfl

/-! ## C5 — grow distribution of PerformLayoutChildren
(renderer_processing.go lines 1259-1310)

Children are modelled as pairs (isGrow, mainAxisSize): the LayoutGrow flag of
the header and the main-axis extent (RenderW for a row, RenderH for a column)
the sizing pass of Pass 1 assigned.  The source computes in float32; the
arithmetic is modelled exactly over ℚ, and the concrete witness inputs
(300, 50, 10, scale factor 1) are small integers on which float32 addition,
subtraction and halving are exact, so the ℚ model coincides with the float32
computation there. -/

/-- Pass 2 of PerformLayoutChildren, grow-children count (line 1284). -/
def growCount (cs : List (Bool × ℚ)) : Nat := cs.countP (fun c => c.1)

/-- Pass 2 of PerformLayoutChildren, sum of the fixed children's main-axis
extents (lines 1279-1289). -/
def fixedMainSum (cs : List (Bool × ℚ)) : ℚ :=
  cs.foldl (fun s c => if c.1 then s else s + c.2) 0

/-- Total inter-child gap space (lines 1259-1263): gap times one less than
the number of flow children, when there is more than one. -/
def totalGapSpace (gap : ℚ) (n : Nat) : ℚ :=
  if 1 < n then gap * ((n - 1 : Nat) : ℚ) else 0

/-- Passes 2 and 3 of PerformLayoutChildren (lines 1259-1310): subtract the
total gap from the available main-axis space, clamp at zero; sum the fixed
children; the leftover (clamped at zero) is divided evenly among the grow
children when there are any and it is positive; every grow child's main-axis
size is then overwritten with that share, and all sizes are clamped at
zero. -/
def performLayoutGrowPass (avail gap : ℚ) (cs : List (Bool × ℚ)) : List ℚ :=
  let tg := totalGapSpace gap cs.length
  let effSpace := max 0 (avail - tg)
  let totalFixed := max 0 (fixedMainSum cs)
  let spaceGrow := max 0 (effSpace - totalFixed)
  let nGrow := growCount cs
  let sizePer := if 0 < nGrow ∧ 0 < spaceGrow then spaceGrow / (nGrow : ℚ) else 0
  cs.map (fun c => max 0 (if c.1 ∧ 0 < sizePer then sizePer else c.2))

theorem fixedMainSum_foldl_ge (cs : List (Bool × ℚ)) (h : ∀ c ∈ cs, 0 ≤ c.2) :
    ∀ init : ℚ, init ≤ cs.foldl (fun s c => if c.1 then s else s + c.2) init := by
  induction cs with
  | nil => intro init; exact le_rfl
  | cons c cs ih =>
    intro init
    have hc : 0 ≤ c.2 := h c (List.mem_cons_self c cs)
    have hrest : ∀ x ∈ cs, 0 ≤ x.2 := fun x hx => h x (List.mem_cons_of_mem c hx)
    simp only [List.foldl_cons]
    by_cases hg : c.1 = true
    · rw [if_pos hg]
      exact ih hrest init
    · rw [if_neg hg]
      have h2 := ih hrest (init + c.2)
      linarith
theorem fixedMainSum_nonneg (cs : List (Bool × ℚ)) (h : ∀ c ∈ cs, 0 ≤ c.2) :
    0 ≤ fixedMainSum cs :=
  fixedMainSum_foldl_ge cs h 0

/-- C5: for a container with given available main-axis space, flow children of
which some are fixed-size and some grow, and an inter-child gap, the grow pass
assigns every grow child the leftover space — available space minus total gap
minus the sum of the fixed children's extents — divided evenly among the grow
children, and leaves every fixed child's size unchanged.  Instantiated at a
row of width 300 with two fixed children of width 50, two grow children and
gap 10 this gives each grow child (300 - 100 - 30) / 2 = 85 (see the
witness). -/
theorem performLayoutGrowPass_spec (avail gap : ℚ) (cs : List (Bool × ℚ))
    (hpos : ∀ c ∈ cs, 0 ≤ c.2)
    (hgrow : 0 < growCount cs)
    (hleft : 0 < avail - totalGapSpace gap cs.length - fixedMainSum cs) :
    performLayoutGrowPass avail gap cs =
      cs.map (fun c => if c.1 then
          (avail - totalGapSpace gap cs.length - fixedMainSum cs) / (growCount cs : ℚ)
        else c.2) := by
  have hfix : 0 ≤ fixedMainSum cs := fixedMainSum_nonneg cs hpos
  have heff : max 0 (avail - totalGapSpace gap cs.length)
      = avail - totalGapSpace gap cs.length := by
    rw [max_eq_right]; linarith
  have htf : max 0 (fixedMainSum cs) = fixedMainSum cs := max_eq_right hfix
  have hsg : max 0 (avail - totalGapSpace gap cs.length - fixedMainSum cs)
      = avail - totalGapSpace gap cs.length - fixedMainSum cs := by
    rw [max_eq_right]; linarith
  have hng : (0 : ℚ) < (growCount cs : ℚ) := by exact_mod_cast hgrow
  have hsp : 0 < (avail - totalGapSpace gap cs.length - fixedMainSum cs)
      / (growCount cs : ℚ) := div_pos hleft hng
  unfold performLayoutGrowPass
  simp only [heff, htf, hsg, if_pos (And.intro hgrow hleft)]
  refine List.map_congr_left ?_
  intro c hc
  by_cases hcg : c.1 = true
  · have hcond := And.intro hcg hsp
    rw [if_pos hcond, if_pos hcg, max_eq_right hsp.le]
  · have hcond : ¬ (c.1 = true ∧
        0 < (avail - totalGapSpace gap cs.length - fixedMainSum cs) / (growCount cs : ℚ)) :=
      fun h => hcg h.1
    rw [if_neg hcond, if_neg hcg, max_eq_right (hpos c hc)]

/-- The concrete children row of the claim: fixed 50, grow, fixed 50, grow. -/
def growDemoChildren : List (Bool × ℚ) :=
  [(false, 50), (true, 0), (false, 50), (true, 0)]

/-- Witness for C5: width 300, gap 10, two fixed children of width 50 and two
grow children give each grow child exactly (300 - 100 - 30) / 2 = 85. -/
theorem performLayoutGrowPass_spec_witness :
    performLayoutGrowPass 300 10 growDemoChildren = [50, 85, 50, 85] := by
  have h := performLayoutGrowPass_spec 300 10 growDemoChildren
    (by norm_num [growDemoChildren])
    (by norm_num [growDemoChildren, growCount])
    (by norm_num [growDemoChildren, totalGapSpace, fixedMainSum])
  rw [h]
  norm_num [growDemoChildren, totalGapSpace, fixedMainSum, growCount]

/-! ## C1 — tree finalization invariants, the linking phase
(renderer_processing.go: linkOriginalKrbChildren lines 186-263,
finalizeTreeStructureAndRoots lines 265-288; the expansion and slot-insertion
part of the claim continues in the section after the arena slotting
definitions, where the C1 theorem itself lives)

The document data the linker reads: the element count, the per-element file
start offsets, the per-element child-reference lists (relative byte offsets)
and the per-element component-instance flag.  The header's ChildCount and the
length of the ChildRefs list are taken as consistent, as the parser
establishes; a zero count skips linking, which links exactly nothing, the
same as an empty list.  A RenderElement's Parent pointer is an arena index
here; the source assigns child.Parent = currentEl inside an ascending loop
over parents, so when several parents list the same child the last assignment
wins — the foldl below reproduces exactly that. -/

structure KrbDoc where
  elementCount : Nat
  elementStartOffsets : List Nat
  childRefs : List (List Nat)
  isComponentInstance : List Bool
deriving DecidableEq, Repr

/-- The offsetToInitialElementIndex map (lines 195-200): Go map insertion in
an ascending loop, so on duplicate start offsets the later element index
wins. -/
def offsetToInitialElementIndex (d : KrbDoc) (off : Nat) : Option Nat :=
  (List.range (min d.elementCount d.elementStartOffsets.length)).foldl
    (fun acc i => if d.elementStartOffsets.getD i 0 = off then some i else acc) none

/-- The resolved child targets of element i (lines 208-248): each relative
child offset is added to the parent's own start offset and looked up in the
offset map; an offset that does not resolve is logged and skipped
(filterMap).  Missing ChildRefs or a missing start offset skip the whole
element. -/
def resolvedChildTargets (d : KrbDoc) (i : Nat) : List Nat :=
  match d.childRefs.get? i, d.elementStartOffsets.get? i with
  | some refs, some pstart =>
      refs.filterMap (fun rel => offsetToInitialElementIndex d (pstart + rel))
  | _, _ => []

/-- The children list the linker attaches to element i (lines 250-259): a
component-instance placeholder stashes its children in the usage map instead
of linking them, and elements outside the initial range do not exist. -/
def linkChildrenOf (d : KrbDoc) (i : Nat) : List Nat :=
  if i < d.elementCount ∧ d.isComponentInstance.getD i false = false then
    resolvedChildTargets d i
  else []

/-- The Parent pointer of element c after the linking loop: the loop walks
parents in ascending order and assigns child.Parent for every linked child,
so the last parent listing c wins. -/
def linkParentOf (d : KrbDoc) (c : Nat) : Option Nat :=
  (List.range d.elementCount).foldl
    (fun acc i => if c ∈ linkChildrenOf d i then some i else acc) none

/-- finalizeTreeStructureAndRoots (lines 265-288): the roots are exactly the
elements whose Parent pointer is still nil. -/
def finalizeRoots (d : KrbDoc) : List Nat :=
  (List.range d.elementCount).filter (fun i => linkParentOf d i = none)

/-- The parent-to-child edge relation of the linked tree. -/
abbrev linkEdge (d : KrbDoc) (i j : Nat) : Prop := j ∈ linkChildrenOf d i

/-- A document whose single element lists itself as a child: the relative
child offset 0 resolves to the element's own start offset. -/
def selfChildDoc : KrbDoc := ⟨1, [0], [[0]], [false]⟩

/-- C1 counterexample: the claim fails as stated.  In selfChildDoc the single
element's child reference (relative offset 0) resolves to the element itself,
so after linking and root discovery the node is its own parent, the
parent/children relation has a cycle, and the document has no declared root
at all even though the node has a parent. -/
theorem finalizeTree_cycle_counterexample :
    Relation.TransGen (linkEdge selfChildDoc) 0 0 ∧
    linkParentOf selfChildDoc 0 = some 0 ∧
    finalizeRoots selfChildDoc = [] :=
  ⟨Relation.TransGen.single (by decide), by decide, by decide⟩

/-- The last-wins fold over an ascending index range, characterized: it
returns some m exactly when m is the largest index below n satisfying the
predicate. -/
theorem range_foldl_lastSome (P : Nat → Prop) [DecidablePred P] (n m : Nat) :
    ((List.range n).foldl (fun acc i => if P i then some i else acc) none = some m) ↔
      (P m ∧ m < n ∧ ∀ k, m < k → k < n → ¬ P k) := by
  induction n with
  | zero => simp [List.range_zero]
  | succ n ih =>
    rw [List.range_succ, List.foldl_append]
    simp only [List.foldl_cons, List.foldl_nil]
    by_cases hP : P n
    · rw [if_pos hP]
      constructor
      · rintro h
        obtain rfl : n = m := by simpa using h
        exact ⟨hP, Nat.lt_succ_self n, fun k hk1 hk2 _ => by omega⟩
      · rintro ⟨hm, hmn, hmax⟩
        have : m = n := by
          by_contra hne
          exact hmax n (by omega) (Nat.lt_succ_self n) hP
        simp [this]
    · rw [if_neg hP, ih]
      constructor
      · rintro ⟨h1, h2, h3⟩
        refine ⟨h1, by omega, fun k hk1 hk2 => ?_⟩
        rcases Nat.lt_succ_iff_lt_or_eq.mp hk2 with h | rfl
        · exact h3 k hk1 h
        · exact hP
      · rintro ⟨h1, h2, h3⟩
        have hmn : m ≠ n := fun h => hP (h ▸ h1)
        exact ⟨h1, by omega, fun k hk1 hk2 => h3 k hk1 (by omega)⟩

theorem mem_linkChildrenOf_lt (d : KrbDoc) (i j : Nat) (h : j ∈ linkChildrenOf d i) :
    i < d.elementCount := by
  by_contra hi
  unfold linkChildrenOf at h
  rw [if_neg] at h
  · exact absurd h (List.not_mem_nil j)
  · exact fun hc => hi hc.1

/-- The linking-level invariants: for documents whose resolved child
references point strictly forward and reference each element at most once,
a node's Parent pointer names exactly the parents whose children list
contains it, the parent/children relation is acyclic, and the declared roots
are exactly the elements with no parent.  (Helper for the C1 theorem, which
also covers duplicate-freedom, the arena view and the expansion steps.) -/
theorem linkInvariants (d : KrbDoc)
    (hfwd : ∀ i, i < d.elementCount → ∀ j ∈ linkChildrenOf d i,
      i < j ∧ j < d.elementCount)
    (huniq : ∀ i₁, i₁ < d.elementCount → ∀ i₂, i₂ < d.elementCount →
      ∀ j ∈ linkChildrenOf d i₁, j ∈ linkChildrenOf d i₂ → i₁ = i₂) :
    (∀ j i, linkParentOf d j = some i ↔ j ∈ linkChildrenOf d i) ∧
    (∀ j, ¬ Relation.TransGen (linkEdge d) j j) ∧
    (∀ j, j < d.elementCount → (j ∈ finalizeRoots d ↔ linkParentOf d j = none)) := by
  have hedge_lt : ∀ a b, linkEdge d a b → a < b := by
    intro a b hab
    have ha : a < d.elementCount := mem_linkChildrenOf_lt d a b hab
    exact (hfwd a ha b hab).1
  refine ⟨?_, ?_, ?_⟩
  · intro j i
    rw [linkParentOf, range_foldl_lastSome (fun i => j ∈ linkChildrenOf d i)]
    constructor
    · rintro ⟨h1, _, _⟩
      exact h1
    · intro hmem
      have hi : i < d.elementCount := mem_linkChildrenOf_lt d i j hmem
      refine ⟨hmem, hi, fun k hk1 hk2 hkmem => ?_⟩
      have := huniq i hi k hk2 j hmem hkmem
      omega
  · intro j htg
    have : ∀ a b, Relation.TransGen (linkEdge d) a b → a < b := by
      intro a b h
      induction h with
      | single h1 => exact hedge_lt _ _ h1
      | tail _ h2 ih => exact lt_trans ih (hedge_lt _ _ h2)
    exact absurd (this j j htg) (lt_irrefl j)
  · intro j hj
    unfold finalizeRoots
    rw [List.mem_filter]
    constructor
    · rintro ⟨_, h⟩
      simpa using h
    · intro h
      exact ⟨List.mem_range.mpr hj, by simpa using h⟩

/-! ## C6 and C7 — the property inheritance pass
(part_001: resolvePropertyInheritance lines 305-348,
applyInheritanceRecursive lines 350-391)

applyInheritanceRecursive walks the pointer tree the expander built; on the
well-formed trees of the runtime this is precisely structural recursion over
the tree unfolding, embedded here over rose trees (a mutual tree/forest pair
so that all recursion is structural).  VData carries exactly the fields the
pass reads and writes: the text-bearing test (Type is Text, Button or Input),
the foreground color, the resolved font size (0 = unset) and the text
alignment (0xFF = unset sentinel). -/

structure VData where
  textBearing : Bool
  fg : Col
  fontSize : Nat
  textAlign : Nat
deriving DecidableEq, Repr

mutual
inductive VTree where
  | node : VData → VForest → VTree
deriving DecidableEq
inductive VForest where
  | nil : VForest
  | cons : VTree → VForest → VForest
deriving DecidableEq
end

def VForest.get? : VForest → Nat → Option VTree
  | .nil, _ => none
  | .cons t _, 0 => some t
  | .cons _ ts, n + 1 => ts.get? n

/-- Lines 361-368: a text-bearing node whose foreground is blank or has zero
alpha takes the inherited color when that has positive alpha, else the
process default; any other node keeps its color. -/
def resolvedFgColor (cfg : RConfig) (inheritedFgColor : Col) (d : VData) : Col :=
  if d.textBearing = true ∧ d.fg.a = 0 then
    (if 0 < inheritedFgColor.a then inheritedFgColor else cfg.defaultFgColor)
  else d.fg

/-- Lines 369-372: the color passed on to the children is the node's own
resolved color unless its alpha is zero, in which case the inherited color is
passed through. -/
def fgColorForChildren (cfg : RConfig) (inheritedFgColor : Col) (d : VData) : Col :=
  if (resolvedFgColor cfg inheritedFgColor d).a = 0 then inheritedFgColor
  else resolvedFgColor cfg inheritedFgColor d

/-- Lines 374-378: an unset (zero) font size takes the inherited one. -/
def resolvedFontSizeOf (inheritedFontSize : Nat) (d : VData) : Nat :=
  if d.fontSize = 0 then inheritedFontSize else d.fontSize

/-- Lines 380-386: a text alignment still at the sentinel takes the inherited
one. -/
def resolvedTextAlignOf (inheritedTextAlignment : Nat) (d : VData) : Nat :=
  if d.textAlign = unsetTextAlignmentSentinel then inheritedTextAlignment else d.textAlign

mutual
/-- applyInheritanceRecursive (part_001 lines 350-391). -/
def applyInheritanceRecursive (cfg : RConfig) (inhFg : Col) (inhFs inhTa : Nat) :
    VTree → VTree
  | .node d cs =>
    .node ⟨d.textBearing, resolvedFgColor cfg inhFg d, resolvedFontSizeOf inhFs d,
           resolvedTextAlignOf inhTa d⟩
      (applyInheritanceRecursiveF cfg (fgColorForChildren cfg inhFg d)
        (resolvedFontSizeOf inhFs d) (resolvedTextAlignOf inhTa d) cs)
/-- The child loop of applyInheritanceRecursive (lines 388-390). -/
def applyInheritanceRecursiveF (cfg : RConfig) (inhFg : Col) (inhFs inhTa : Nat) :
    VForest → VForest
  | .nil => .nil
  | .cons t ts =>
    .cons (applyInheritanceRecursive cfg inhFg inhFs inhTa t)
      (applyInheritanceRecursiveF cfg inhFg inhFs inhTa ts)
end

/-- Lines 316-321: the root's own foreground resolution against the window
default. -/
def rootFgColor (cfg : RConfig) (d : VData) : Col :=
  if d.textBearing = true ∧ d.fg.a = 0 then cfg.defaultFgColor else d.fg

/-- Lines 322-325: the foreground the root passes to its subtree. -/
def rootFgToPass (cfg : RConfig) (d : VData) : Col :=
  if (rootFgColor cfg d).a = 0 then cfg.defaultFgColor else rootFgColor cfg d

/-- Lines 327-332: the root's font size resolution. -/
def rootFontSize (cfg : RConfig) (d : VData) : Nat :=
  if d.fontSize = 0 then cfg.defaultFontSize else d.fontSize

/-- Lines 334-344: the root's text alignment resolution against the
app-level default. -/
def rootTextAlign (d : VData) : Nat :=
  if d.textAlign = unsetTextAlignmentSentinel then layoutAlignStart else d.textAlign

/-- resolvePropertyInheritance for one root (part_001 lines 315-346): resolve
the root's own foreground, font size and alignment against the window
defaults, then run applyInheritanceRecursive on the root itself with the
resolved values as the inherited ones. -/
def resolveRootInheritance (cfg : RConfig) : VTree → VTree
  | .node d cs =>
    applyInheritanceRecursive cfg (rootFgToPass cfg d) (rootFontSize cfg d) (rootTextAlign d)
      (.node ⟨d.textBearing, rootFgColor cfg d, rootFontSize cfg d, rootTextAlign d⟩ cs)

/-- The data at the end of a path of child indices. -/
def nodeAt : List Nat → VTree → Option VData
  | [], .node d _ => some d
  | i :: p, .node _ cs =>
    match cs.get? i with
    | some c => nodeAt p c
    | none => none

/-- The data of the proper ancestors of the node a path addresses, nearest
ancestor first. -/
def ancestorData : List Nat → VTree → List VData
  | [], _ => []
  | i :: p, .node d cs =>
    match cs.get? i with
    | some c => ancestorData p c ++ [d]
    | none => []

/-- From the claim's words: the foreground color of the nearest ancestor that
has one (positive alpha), or the given fallback. -/
def nearestSetFgColor (dflt : Col) : List Col → Col
  | [] => dflt
  | c :: rest => if 0 < c.a then c else nearestSetFgColor dflt rest

/-- From the claim's words: the font size of the nearest ancestor whose font
size is resolved (nonzero), or the given fallback. -/
def nearestNonzeroFontSize (dflt : Nat) : List Nat → Nat
  | [] => dflt
  | x :: rest => if x ≠ 0 then x else nearestNonzeroFontSize dflt rest

/-- From the claim's words: the text alignment of the nearest ancestor whose
alignment is not the unset sentinel, or the given fallback. -/
def nearestDeclaredTextAlignment (dflt : Nat) : List Nat → Nat
  | [] => dflt
  | x :: rest => if x ≠ unsetTextAlignmentSentinel then x
      else nearestDeclaredTextAlignment dflt rest

/-- A color with zero alpha falls back to the process default. -/
def orDefaultFg (cfg : RConfig) (c : Col) : Col :=
  if 0 < c.a then c else cfg.defaultFgColor

theorem applyInheritanceRecursiveF_get (cfg : RConfig) (inhFg : Col) (inhFs inhTa : Nat)
    (i : Nat) : ∀ cs : VForest,
    (applyInheritanceRecursiveF cfg inhFg inhFs inhTa cs).get? i
      = (cs.get? i).map (applyInheritanceRecursive cfg inhFg inhFs inhTa) := by
  induction i with
  | zero => intro cs; cases cs <;> simp [applyInheritanceRecursiveF, VForest.get?]
  | succ n ih => intro cs; cases cs <;> simp [applyInheritanceRecursiveF, VForest.get?, ih]

theorem nearestSetFgColor_append (dflt : Col) (l₁ l₂ : List Col) :
    nearestSetFgColor dflt (l₁ ++ l₂)
      = nearestSetFgColor (nearestSetFgColor dflt l₂) l₁ := by
  induction l₁ with
  | nil => simp [nearestSetFgColor]
  | cons c rest ih => by_cases hc : 0 < c.a <;> simp [nearestSetFgColor, hc, ih]

theorem nearestNonzeroFontSize_append (dflt : Nat) (l₁ l₂ : List Nat) :
    nearestNonzeroFontSize dflt (l₁ ++ l₂)
      = nearestNonzeroFontSize (nearestNonzeroFontSize dflt l₂) l₁ := by
  induction l₁ with
  | nil => simp [nearestNonzeroFontSize]
  | cons x rest ih => by_cases hx : x = 0 <;> simp [nearestNonzeroFontSize, hx, ih]

theorem nearestDeclaredTextAlignment_append (dflt : Nat) (l₁ l₂ : List Nat) :
    nearestDeclaredTextAlignment dflt (l₁ ++ l₂)
      = nearestDeclaredTextAlignment (nearestDeclaredTextAlignment dflt l₂) l₁ := by
  induction l₁ with
  | nil => simp [nearestDeclaredTextAlignment]
  | cons x rest ih =>
    by_cases hx : x = unsetTextAlignmentSentinel <;>
      simp [nearestDeclaredTextAlignment, hx, ih]

theorem orDefaultFg_nearestSetFgColor_congr (cfg : RConfig) (x y : Col)
    (h : orDefaultFg cfg x = orDefaultFg cfg y) (l : List Col) :
    orDefaultFg cfg (nearestSetFgColor x l) = orDefaultFg cfg (nearestSetFgColor y l) := by
  induction l with
  | nil => exact h
  | cons c rest ih => by_cases hc : 0 < c.a <;> simp [nearestSetFgColor, hc, ih]

theorem orDefaultFg_nearestSetFgColor_posBase (cfg : RConfig) (dflt : Col)
    (hdflt : 0 < dflt.a) (l : List Col) :
    orDefaultFg cfg (nearestSetFgColor dflt l) = nearestSetFgColor dflt l := by
  induction l with
  | nil => simp [nearestSetFgColor, orDefaultFg, hdflt]
  | cons c rest ih =>
    by_cases hc : 0 < c.a
    · simp [nearestSetFgColor, hc, orDefaultFg]
    · simp [nearestSetFgColor, hc, ih]

/-- One step of the foreground propagation, up to the zero-alpha
normalization: the color applyInheritanceRecursive hands to the children of a
node with data e coincides (after the default fallback) with the nearest-set
lookup over the single ancestor e. -/
theorem fgColorForChildren_base (cfg : RConfig) (hcfg : 0 < cfg.defaultFgColor.a)
    (inhFg : Col) (e : VData) :
    orDefaultFg cfg (fgColorForChildren cfg inhFg e)
      = orDefaultFg cfg (nearestSetFgColor inhFg [e.fg]) := by
  unfold fgColorForChildren resolvedFgColor
  by_cases hb : e.textBearing = true ∧ e.fg.a = 0
  · have he : ¬ 0 < e.fg.a := by omega
    by_cases hi : 0 < inhFg.a
    · simp [hb, hi, nearestSetFgColor, he]
    · have hi0 : inhFg.a = 0 := by omega
      have hc0 : ¬ cfg.defaultFgColor.a = 0 := by omega
      simp [hb, hi, nearestSetFgColor, he, orDefaultFg, hcfg, hi0, hc0]
  · by_cases he : 0 < e.fg.a
    · have he0 : ¬ e.fg.a = 0 := by omega
      simp [hb, nearestSetFgColor, he, he0]
    · have he0 : e.fg.a = 0 := by omega
      have htb : ¬ e.textBearing = true := fun h => hb ⟨h, he0⟩
      simp [hb, htb, nearestSetFgColor, he, he0]

theorem resolvedFontSizeOf_base (inhFs : Nat) (e : VData) :
    resolvedFontSizeOf inhFs e = nearestNonzeroFontSize inhFs [e.fontSize] := by
  by_cases h : e.fontSize = 0 <;> simp [resolvedFontSizeOf, nearestNonzeroFontSize, h]

theorem resolvedTextAlignOf_base (inhTa : Nat) (e : VData) :
    resolvedTextAlignOf inhTa e = nearestDeclaredTextAlignment inhTa [e.textAlign] := by
  by_cases h : e.textAlign = unsetTextAlignmentSentinel <;>
    simp [resolvedTextAlignOf, nearestDeclaredTextAlignment, h]

/-- The value of every node of the tree after applyInheritanceRecursive, as a
function of its original data and the original data of its ancestors: an
unset field resolves to the nearest ancestor that carries the field, falling
back to the inherited arguments (the foreground additionally normalized by
the process default when everything in scope has zero alpha). -/
theorem applyInheritanceRecursive_nodeAt (cfg : RConfig)
    (hcfg : 0 < cfg.defaultFgColor.a) :
    ∀ (p : List Nat) (t : VTree) (inhFg : Col) (inhFs inhTa : Nat) (d : VData),
    nodeAt p t = some d →
    nodeAt p (applyInheritanceRecursive cfg inhFg inhFs inhTa t) = some
      ⟨d.textBearing,
       if d.textBearing = true ∧ d.fg.a = 0 then
         orDefaultFg cfg (nearestSetFgColor inhFg ((ancestorData p t).map VData.fg))
       else d.fg,
       if d.fontSize = 0 then
         nearestNonzeroFontSize inhFs ((ancestorData p t).map VData.fontSize)
       else d.fontSize,
       if d.textAlign = unsetTextAlignmentSentinel then
         nearestDeclaredTextAlignment inhTa ((ancestorData p t).map VData.textAlign)
       else d.textAlign⟩ := by
  intro p
  induction p with
  | nil =>
    intro t inhFg inhFs inhTa d h
    cases t with
    | node e cs =>
      have he : e = d := by simpa [nodeAt] using h
      subst he
      simp only [applyInheritanceRecursive, nodeAt, ancestorData, List.map_nil]
      have hfg : resolvedFgColor cfg inhFg e =
          (if e.textBearing = true ∧ e.fg.a = 0 then
            orDefaultFg cfg (nearestSetFgColor inhFg []) else e.fg) := by
        by_cases hb : e.textBearing = true ∧ e.fg.a = 0 <;>
          simp [resolvedFgColor, orDefaultFg, nearestSetFgColor, hb]
      have hfs : resolvedFontSizeOf inhFs e =
          (if e.fontSize = 0 then nearestNonzeroFontSize inhFs [] else e.fontSize) := by
        by_cases hb : e.fontSize = 0 <;>
          simp [resolvedFontSizeOf, nearestNonzeroFontSize, hb]
      have hta : resolvedTextAlignOf inhTa e =
          (if e.textAlign = unsetTextAlignmentSentinel then
            nearestDeclaredTextAlignment inhTa [] else e.textAlign) := by
        by_cases hb : e.textAlign = unsetTextAlignmentSentinel <;>
          simp [resolvedTextAlignOf, nearestDeclaredTextAlignment, hb]
      rw [hfg, hfs, hta]
  | cons i p ih =>
    intro t inhFg inhFs inhTa d h
    cases t with
    | node e cs =>
      simp only [nodeAt] at h
      cases hc : cs.get? i with
      | none => rw [hc] at h; exact absurd h (by simp)
      | some c =>
        rw [hc] at h
        have hmain := ih c (fgColorForChildren cfg inhFg e)
          (resolvedFontSizeOf inhFs e) (resolvedTextAlignOf inhTa e) d h
        simp only [applyInheritanceRecursive, nodeAt,
          applyInheritanceRecursiveF_get, hc, Option.map_some']
        rw [hmain]
        simp only [ancestorData, hc, List.map_append, List.map_cons, List.map_nil]
        have hbrFg : orDefaultFg cfg (nearestSetFgColor (fgColorForChildren cfg inhFg e)
              ((ancestorData p c).map VData.fg))
            = orDefaultFg cfg (nearestSetFgColor inhFg
              (((ancestorData p c).map VData.fg) ++ [e.fg])) := by
          rw [nearestSetFgColor_append]
          exact orDefaultFg_nearestSetFgColor_congr cfg _ _
            (fgColorForChildren_base cfg hcfg inhFg e) _
        have hbrFs : nearestNonzeroFontSize (resolvedFontSizeOf inhFs e)
              ((ancestorData p c).map VData.fontSize)
            = nearestNonzeroFontSize inhFs
              (((ancestorData p c).map VData.fontSize) ++ [e.fontSize]) := by
          rw [nearestNonzeroFontSize_append, ← resolvedFontSizeOf_base]
        have hbrTa : nearestDeclaredTextAlignment (resolvedTextAlignOf inhTa e)
              ((ancestorData p c).map VData.textAlign)
            = nearestDeclaredTextAlignment inhTa
              (((ancestorData p c).map VData.textAlign) ++ [e.textAlign]) := by
          rw [nearestDeclaredTextAlignment_append, ← resolvedTextAlignOf_base]
        rw [hbrFg, hbrFs, hbrTa]

/-- C6: after the inheritance pass, every text-capable node whose foreground
color was still unset (alpha 0 / blank) holds the resolved foreground color
of its nearest ancestor that has one, and the process-wide default foreground
color when no ancestor has one.  (The process default has positive alpha, as
the shipped DefaultWindowConfig guarantees.) -/
theorem resolvePropertyInheritance_fgColor (cfg : RConfig) (t : VTree) (p : List Nat)
    (d : VData) (hcfg : 0 < cfg.defaultFgColor.a) (hd : nodeAt p t = some d)
    (htext : d.textBearing = true) (hunset : d.fg.a = 0) :
    (nodeAt p (resolveRootInheritance cfg t)).map VData.fg =
      some (nearestSetFgColor cfg.defaultFgColor ((ancestorData p t).map VData.fg)) := by
  cases t with
  | node e cs =>
    have hc0 : ¬ cfg.defaultFgColor.a = 0 := by omega
    cases p with
    | nil =>
      have he : e = d := by simpa [nodeAt] using hd
      subst he
      have hfg1v : rootFgColor cfg e = cfg.defaultFgColor := by
        simp [rootFgColor, htext, hunset]
      simp [resolveRootInheritance, applyInheritanceRecursive, nodeAt, resolvedFgColor,
        ancestorData, nearestSetFgColor, hfg1v, hcfg, hc0, htext]
    | cons i p2 =>
      simp only [nodeAt] at hd
      cases hc : cs.get? i with
      | none => rw [hc] at hd; exact absurd hd (by simp)
      | some c =>
        rw [hc] at hd
        have hd2 : nodeAt p2 c = some d := hd
        have hmain := applyInheritanceRecursive_nodeAt cfg hcfg (i :: p2)
          (.node ⟨e.textBearing, rootFgColor cfg e, rootFontSize cfg e, rootTextAlign e⟩ cs)
          (rootFgToPass cfg e) (rootFontSize cfg e) (rootTextAlign e) d
          (by simp [nodeAt, hc, hd2])
        simp only [resolveRootInheritance]
        rw [hmain]
        simp only [Option.map_some']
        simp only [ancestorData, hc, List.map_append, List.map_cons, List.map_nil]
        rw [if_pos (And.intro htext hunset)]
        rw [nearestSetFgColor_append, nearestSetFgColor_append]
        have hbase : nearestSetFgColor (rootFgToPass cfg e) [rootFgColor cfg e]
            = nearestSetFgColor cfg.defaultFgColor [e.fg] := by
          by_cases hba : e.fg.a = 0
          · by_cases htb : e.textBearing = true
            · have h1 : rootFgColor cfg e = cfg.defaultFgColor := by
                simp [rootFgColor, htb, hba]
              have h2 : rootFgToPass cfg e = cfg.defaultFgColor := by
                simp [rootFgToPass, h1, hc0]
              simp [nearestSetFgColor, h1, h2, hcfg, show ¬ 0 < e.fg.a by omega]
            · have h1 : rootFgColor cfg e = e.fg := by
                simp [rootFgColor, htb]
              have h2 : rootFgToPass cfg e = cfg.defaultFgColor := by
                simp [rootFgToPass, h1, hba]
              simp [nearestSetFgColor, h1, h2, hcfg, show ¬ 0 < e.fg.a by omega]
          · have h1 : rootFgColor cfg e = e.fg := by
              simp [rootFgColor, hba]
            have h2 : rootFgToPass cfg e = e.fg := by
              simp [rootFgToPass, h1, hba]
            simp [nearestSetFgColor, h1, h2, show 0 < e.fg.a by omega]
        rw [hbase]
        have hpos : 0 < (nearestSetFgColor cfg.defaultFgColor [e.fg]).a := by
          by_cases hba : 0 < e.fg.a <;> simp [nearestSetFgColor, hba, hcfg]
        exact congrArg some (orDefaultFg_nearestSetFgColor_posBase cfg _ hpos _)

/-- A two-node demo configuration and tree for the inheritance witnesses:
a non-text root with everything unset above a text child with everything
unset. -/
def fgDemoConfig : RConfig := ⟨⟨7, 255⟩, ⟨1, 255⟩, 16⟩

def fgDemoTree : VTree :=
  .node ⟨false, colBlank, 0, unsetTextAlignmentSentinel⟩
    (.cons (.node ⟨true, colBlank, 0, unsetTextAlignmentSentinel⟩ .nil) .nil)

/-- Witness for C6: in fgDemoTree no ancestor of the text child has a set
foreground, so the child resolves to the process default. -/
theorem resolvePropertyInheritance_fgColor_witness :
    (nodeAt [0] (resolveRootInheritance fgDemoConfig fgDemoTree)).map VData.fg
      = some (⟨7, 255⟩ : Col) := by
  have h := resolvePropertyInheritance_fgColor fgDemoConfig fgDemoTree [0]
    ⟨true, colBlank, 0, unsetTextAlignmentSentinel⟩ (by decide) (by decide)
    (by decide) (by decide)
  rw [h]
  decide

/-! ## C7 — text alignment in the inheritance pass

The claim says alignment participates in inheritance exactly like foreground
color and font size for every node, including the phase-1 nodes created
one-to-one from the document's element array.  The source falsifies this:
phase 1 initializes TextAlignment to LayoutAlignStart (renderer_processing.go
lines 77 and 93), not to the 0xFF sentinel that the inheritance pass tests,
while only template-expanded elements receive the sentinel (line 420).  So a
phase-1 text node with no alignment property keeps Start instead of
receiving its parent's alignment. -/

/-- PrepareTree lines 77 and 93: phase-1 nodes start at LayoutAlignStart. -/
def phase1InitialTextAlignment : Nat := layoutAlignStart

/-- expandComponent line 420: expansion-created nodes start at the unset
sentinel. -/
def expandInitialTextAlignment : Nat := unsetTextAlignmentSentinel

/-- The text alignment a node carries after initialization and the style and
direct property passes. -/
def textAlignmentAfterProps (init : Nat) (styleProps directProps : List KProp) : Nat :=
  (applyDirectPropertiesToElement directProps
    (applyStylePropertiesToElement styleProps (visInit init))).textAlign

def taDemoConfig : RConfig := ⟨⟨7, 255⟩, ⟨1, 255⟩, 16⟩

/-- A text root whose alignment is Center, over a phase-1 text child whose
alignment went through style and direct application with no alignment
property at all. -/
def taDemoTree : VTree :=
  .node ⟨true, ⟨3, 255⟩, 12, layoutAlignCenter⟩
    (.cons (.node ⟨true, ⟨3, 255⟩, 12,
      textAlignmentAfterProps phase1InitialTextAlignment [] []⟩ .nil) .nil)

/-- C7 counterexample: the claim fails as stated.  A phase-1 text node whose
alignment was set by no style and no direct property carries Start (not the
sentinel), and after the inheritance pass it still holds Start while its
parent's effective alignment is Center — it did not receive the parent's
alignment. -/
theorem textAlignment_phase1_counterexample :
    textAlignmentAfterProps phase1InitialTextAlignment [] [] = layoutAlignStart ∧
    layoutAlignStart ≠ unsetTextAlignmentSentinel ∧
    (nodeAt [] (resolveRootInheritance taDemoConfig taDemoTree)).map VData.textAlign
      = some layoutAlignCenter ∧
    (nodeAt [0] (resolveRootInheritance taDemoConfig taDemoTree)).map VData.textAlign
      = some layoutAlignStart ∧
    layoutAlignStart ≠ layoutAlignCenter :=
  ⟨by decide, by decide, by decide, by decide, by decide⟩

/-- The text-alignment component of applyInheritanceRecursive along a path,
independent of the color machinery. -/
theorem applyInheritanceRecursive_nodeAt_ta :
    ∀ (p : List Nat) (t : VTree) (cfg : RConfig) (inhFg : Col) (inhFs inhTa : Nat)
      (d : VData), nodeAt p t = some d →
    (nodeAt p (applyInheritanceRecursive cfg inhFg inhFs inhTa t)).map VData.textAlign
      = some
        (if d.textAlign = unsetTextAlignmentSentinel then
          nearestDeclaredTextAlignment inhTa ((ancestorData p t).map VData.textAlign)
         else d.textAlign) := by
  intro p
  induction p with
  | nil =>
    intro t cfg inhFg inhFs inhTa d h
    cases t with
    | node e cs =>
      have he : e = d := by simpa [nodeAt] using h
      subst he
      by_cases hb : e.textAlign = unsetTextAlignmentSentinel <;>
        simp [applyInheritanceRecursive, nodeAt, ancestorData, resolvedTextAlignOf,
          nearestDeclaredTextAlignment, hb]
  | cons i p ih =>
    intro t cfg inhFg inhFs inhTa d h
    cases t with
    | node e cs =>
      simp only [nodeAt] at h
      cases hc : cs.get? i with
      | none => rw [hc] at h; exact absurd h (by simp)
      | some c =>
        rw [hc] at h
        have hmain := ih c cfg (fgColorForChildren cfg inhFg e)
          (resolvedFontSizeOf inhFs e) (resolvedTextAlignOf inhTa e) d h
        simp only [applyInheritanceRecursive, nodeAt,
          applyInheritanceRecursiveF_get, hc, Option.map_some']
        rw [hmain]
        simp only [ancestorData, hc, List.map_append, List.map_cons, List.map_nil]
        rw [nearestDeclaredTextAlignment_append, ← resolvedTextAlignOf_base]

/-- C7 amended: text alignment inheritance applies exactly to the nodes
whose alignment is still the 0xFF sentinel after style and direct property
application — the initialization used by expansion-created nodes — and such
a node receives the effective alignment of the nearest ancestor whose
alignment is not the sentinel, or the app-level Start default at a root.
Phase-1 nodes are initialized to Start instead of the sentinel, so without
an explicit alignment property they keep Start and do not inherit. -/
theorem resolvePropertyInheritance_textAlignment (cfg : RConfig) (t : VTree)
    (p : List Nat) (d : VData) (hd : nodeAt p t = some d)
    (hsent : d.textAlign = unsetTextAlignmentSentinel) :
    (nodeAt p (resolveRootInheritance cfg t)).map VData.textAlign =
      some (nearestDeclaredTextAlignment layoutAlignStart
        ((ancestorData p t).map VData.textAlign)) := by
  cases t with
  | node e cs =>
    cases p with
    | nil =>
      have he : e = d := by simpa [nodeAt] using hd
      subst he
      have hroot : rootTextAlign e = layoutAlignStart := by
        simp [rootTextAlign, hsent]
      simp [resolveRootInheritance, applyInheritanceRecursive, nodeAt, resolvedTextAlignOf,
        ancestorData, nearestDeclaredTextAlignment, hroot, unsetTextAlignmentSentinel,
        layoutAlignStart]
    | cons i p2 =>
      simp only [nodeAt] at hd
      cases hc : cs.get? i with
      | none => rw [hc] at hd; exact absurd hd (by simp)
      | some c =>
        rw [hc] at hd
        have hd2 : nodeAt p2 c = some d := hd
        have hmain := applyInheritanceRecursive_nodeAt_ta (i :: p2)
          (.node ⟨e.textBearing, rootFgColor cfg e, rootFontSize cfg e, rootTextAlign e⟩ cs)
          cfg (rootFgToPass cfg e) (rootFontSize cfg e) (rootTextAlign e) d
          (by simp [nodeAt, hc, hd2])
        simp only [resolveRootInheritance]
        rw [hmain]
        rw [if_pos hsent]
        simp only [ancestorData, hc, List.map_append, List.map_cons, List.map_nil]
        rw [nearestDeclaredTextAlignment_append, nearestDeclaredTextAlignment_append]
        have hbase : nearestDeclaredTextAlignment (rootTextAlign e) [rootTextAlign e]
            = nearestDeclaredTextAlignment layoutAlignStart [e.textAlign] := by
          by_cases hb : e.textAlign = unsetTextAlignmentSentinel
          · have h1 : rootTextAlign e = layoutAlignStart := by
              unfold rootTextAlign
              rw [if_pos hb]
            rw [h1, hb]
            decide
          · have h1 : rootTextAlign e = e.textAlign := by
              unfold rootTextAlign
              rw [if_neg hb]
            rw [h1]
            simp [nearestDeclaredTextAlignment, hb]
        rw [hbase]

/-- A sentinel-initialized (expansion-created) text child under a root whose
alignment is Center. -/
def taDemoTree2 : VTree :=
  .node ⟨true, ⟨3, 255⟩, 12, layoutAlignCenter⟩
    (.cons (.node ⟨true, ⟨3, 255⟩, 12,
      textAlignmentAfterProps expandInitialTextAlignment [] []⟩ .nil) .nil)

/-- Witness for the amended C7: an expansion-created text child, still at the
sentinel after style and direct application, receives its parent's Center
alignment. -/
theorem resolvePropertyInheritance_textAlignment_witness :
    (nodeAt [0] (resolveRootInheritance taDemoConfig taDemoTree2)).map VData.textAlign
      = some layoutAlignCenter := by
  have h := resolvePropertyInheritance_textAlignment taDemoConfig taDemoTree2 [0]
    ⟨true, ⟨3, 255⟩, 12, textAlignmentAfterProps expandInitialTextAlignment [] []⟩
    (by decide) (by decide)
  rw [h]
  decide

/-! ## The flat element arena

For the structural claims the RenderElements live in a flat store (the
r.elements slice); Parent and the Children lists hold arena indices in place
of the raw Go pointers, per the arena reading of the design notes.  SNode
carries the structural identity of an element (the resolved id-name string
that getStringValueByIdx gives its Header.ID, its type tag, its style id, the
child links and the parent back-reference) together with its visual state. -/

structure SNode where
  idName : String
  etype : ElemType
  styleID : Nat
  children : List Nat
  parent : Option Nat
  vis : Vis
deriving DecidableEq, Repr

/-- Mutate the node at an index, when it exists. -/
def modifyNode (st : List SNode) (i : Nat) (f : SNode → SNode) : List SNode :=
  match st.get? i with
  | some nd => st.set i (f nd)
  | none => st

theorem modifyNode_length (st : List SNode) (i : Nat) (f : SNode → SNode) :
    (modifyNode st i f).length = st.length := by
  unfold modifyNode
  cases st.get? i with
  | none => rfl
  | some nd => exact List.length_set st i (f nd)

theorem modifyNode_get_ne (st : List SNode) (i : Nat) (f : SNode → SNode)
    (j : Nat) (h : j ≠ i) : (modifyNode st i f).get? j = st.get? j := by
  unfold modifyNode
  cases st.get? i with
  | none => rfl
  | some nd => exact List.get?_set_ne (f nd) st (fun he => h he.symm)

theorem modifyNode_get_self (st : List SNode) (i : Nat) (f : SNode → SNode)
    (h : i < st.length) : (modifyNode st i f).get? i = (st.get? i).map f := by
  unfold modifyNode
  cases hg : st.get? i with
  | none =>
    exact absurd (List.get?_eq_none.mp hg) (by omega)
  | some nd =>
    rw [List.get?_set_eq (f nd) i st, hg]
    rfl

/-- A projection undisturbed by f is undisturbed by modifyNode, at every
index. -/
theorem modifyNode_map_eq {α : Type} (st : List SNode) (i : Nat) (f : SNode → SNode)
    (g : SNode → α) (hfg : ∀ nd, g (f nd) = g nd) (j : Nat) :
    ((modifyNode st i f).get? j).map g = (st.get? j).map g := by
  by_cases hj : j = i
  · subst hj
    by_cases hlen : j < st.length
    · rw [modifyNode_get_self st j f hlen]
      cases st.get? j with
      | none => rfl
      | some nd => simp [hfg]
    · have hnone : st.get? j = none := List.get?_eq_none.mpr (by omega)
      have hnone2 : st[j]? = none := by rw [← List.get?_eq_getElem?]; exact hnone
      simp [modifyNode, hnone, hnone2]
  · rw [modifyNode_get_ne st i f j hj]

/-- The parent-to-child edge relation of the arena: the node at i lists j
among its children. -/
def childEdge (st : List SNode) (i j : Nat) : Prop :=
  ∃ nd, st.get? i = some nd ∧ j ∈ nd.children

/-- childrenSlotIDName = "children_host". -/
def childrenSlotIDName : String := "children_host"

/-- The breadth-first slot search (lines 709-736): pop the queue, skip
visited nodes, stop at the first node whose id-name is the slot name,
enqueue unvisited children otherwise.  The Go loop terminates through the
visited set; the fuel argument plays that role here and hypotheses and
witnesses quantify or fix it. -/
def findSlotElement (st : List SNode) : Nat → List Nat → List Nat → Option Nat
  | 0, _, _ => none
  | _ + 1, [], _ => none
  | fuel + 1, q :: qs, visited =>
    if q ∈ visited then findSlotElement st fuel qs visited
    else
      match st.get? q with
      | none => findSlotElement st fuel qs (q :: visited)
      | some nd =>
        if nd.idName = childrenSlotIDName then some q
        else
          findSlotElement st fuel (qs ++ nd.children.filter (fun c => ! visited.contains c))
            (q :: visited)

/-- Lines 683-701: the instance's children list becomes exactly the template
root. -/
def setInstanceChildrenToTemplateRoot (st : List SNode) (instanceIdx rootIdx : Nat) :
    List SNode :=
  modifyNode st instanceIdx (fun nd => { nd with children := [rootIdx] })

def appendChildrenTo (st : List SNode) (i : Nat) (newKids : List Nat) : List SNode :=
  modifyNode st i (fun nd => { nd with children := nd.children ++ newKids })

def setParentTo (st : List SNode) (child p : Nat) : List SNode :=
  modifyNode st child (fun nd => { nd with parent := some p })

/-- Lines 704-771: slot the KRY-usage children into the expanded structure.
Returns the store and whether the children were left unparented (the
error-logged degraded case). -/
def slotKryUsageChildren (fuel : Nat) (st : List SNode) (instanceIdx : Nat)
    (kryUsageChildren : List Nat) : List SNode × Bool :=
  if kryUsageChildren.isEmpty then (st, false)
  else
    let searchQueue : List Nat :=
      match st.get? instanceIdx with
      | some inst =>
        match inst.children.head? with
        | some c => [c]
        | none => []
      | none => []
    match findSlotElement st fuel searchQueue [] with
    | some slotIdx =>
      let st1 := appendChildrenTo st slotIdx kryUsageChildren
      (kryUsageChildren.foldl (fun acc u => setParentTo acc u slotIdx) st1, false)
    | none =>
      match (st.get? instanceIdx).bind (fun inst => inst.children.head?) with
      | some firstRoot =>
        if (st.get? firstRoot).map SNode.etype = some ElemType.container then
          let st1 := appendChildrenTo st firstRoot kryUsageChildren
          (kryUsageChildren.foldl (fun acc u => setParentTo acc u firstRoot) st1, false)
        else (st, true)
      | none => (st, true)

/-- The finalize-then-slot tail of expandComponent. -/
def finalizeInstanceAndSlotChildren (fuel : Nat) (st : List SNode)
    (instanceIdx rootIdx : Nat) (kryUsageChildren : List Nat) : List SNode × Bool :=
  slotKryUsageChildren fuel (setInstanceChildrenToTemplateRoot st instanceIdx rootIdx)
    instanceIdx kryUsageChildren

theorem foldl_setParent_length (l : List Nat) (p : Nat) :
    ∀ st : List SNode, (l.foldl (fun acc u => setParentTo acc u p) st).length = st.length := by
  induction l with
  | nil => intro st; rfl
  | cons u l ih =>
    intro st
    rw [List.foldl_cons, ih (setParentTo st u p)]
    exact modifyNode_length st u _

theorem foldl_setParent_get_notMem (l : List Nat) (p : Nat) (j : Nat) (h : j ∉ l) :
    ∀ st : List SNode,
    (l.foldl (fun acc u => setParentTo acc u p) st).get? j = st.get? j := by
  induction l with
  | nil => intro st; rfl
  | cons u l ih =>
    intro st
    have hju : j ≠ u := fun he => h (he ▸ List.mem_cons_self u l)
    have hl : j ∉ l := fun hm => h (List.mem_cons_of_mem u hm)
    rw [List.foldl_cons, ih hl (setParentTo st u p)]
    exact modifyNode_get_ne st u _ j hju

theorem foldl_setParent_map_children (l : List Nat) (p : Nat) (j : Nat) :
    ∀ st : List SNode,
    ((l.foldl (fun acc u => setParentTo acc u p) st).get? j).map SNode.children
      = (st.get? j).map SNode.children := by
  induction l with
  | nil => intro st; rfl
  | cons u l ih =>
    intro st
    rw [List.foldl_cons, ih (setParentTo st u p)]
    unfold setParentTo
    exact modifyNode_map_eq st u (fun nd => { nd with parent := some p })
      SNode.children (fun nd => rfl) j

theorem foldl_setParent_parent (l : List Nat) (p : Nat) (j : Nat) (hj : j ∈ l) :
    ∀ st : List SNode, j < st.length →
    ((l.foldl (fun acc u => setParentTo acc u p) st).get? j).map SNode.parent
      = some (some p) := by
  induction l with
  | nil => exact absurd hj (List.not_mem_nil j)
  | cons u l ih =>
    intro st hlen
    rw [List.foldl_cons]
    by_cases hm : j ∈ l
    · refine ih hm (setParentTo st u p) ?_
      unfold setParentTo
      rw [modifyNode_length]
      exact hlen
    · have hju : j = u := by
        rcases List.mem_cons.mp hj with h | h
        · exact h
        · exact absurd h hm
      subst hju
      rw [foldl_setParent_get_notMem l p j hm (setParentTo st j p)]
      unfold setParentTo
      rw [modifyNode_get_self st j (fun nd => { nd with parent := some p }) hlen]
      cases hg : st.get? j with
      | none => exact absurd (List.get?_eq_none.mp hg) (by omega)
      | some nd => rfl

/-- C3: expanding a component instance whose template contains a node with
the reserved slot id, with stashed usage-children, appends exactly those
children under the slot node (each re-parented to the slot), leaves the
template root's children list unchanged (so none of the usage children sit
directly under the template root), sets the instance's children list to
exactly the template root, and reports no degraded outcome. -/
theorem expandComponent_slotInsertion
    (fuel : Nat) (st : List SNode) (instanceIdx rootIdx slotIdx : Nat) (usage : List Nat)
    (hinst : instanceIdx < st.length)
    (hroot_ne_inst : rootIdx ≠ instanceIdx)
    (hslot : slotIdx < st.length)
    (hslot_ne_inst : slotIdx ≠ instanceIdx)
    (hslot_ne_root : slotIdx ≠ rootIdx)
    (husage : usage ≠ [])
    (hfresh : ∀ u ∈ usage, u < st.length ∧ u ≠ slotIdx ∧ u ≠ rootIdx ∧ u ≠ instanceIdx)
    (hfind : findSlotElement (setInstanceChildrenToTemplateRoot st instanceIdx rootIdx)
      fuel [rootIdx] [] = some slotIdx) :
    (finalizeInstanceAndSlotChildren fuel st instanceIdx rootIdx usage).2 = false ∧
    ((finalizeInstanceAndSlotChildren fuel st instanceIdx rootIdx usage).1.get? slotIdx).map
        SNode.children = (st.get? slotIdx).map (fun nd => nd.children ++ usage) ∧
    (∀ u ∈ usage,
      ((finalizeInstanceAndSlotChildren fuel st instanceIdx rootIdx usage).1.get? u).map
        SNode.parent = some (some slotIdx)) ∧
    ((finalizeInstanceAndSlotChildren fuel st instanceIdx rootIdx usage).1.get? rootIdx).map
        SNode.children = (st.get? rootIdx).map SNode.children ∧
    ((finalizeInstanceAndSlotChildren fuel st instanceIdx rootIdx usage).1.get?
        instanceIdx).map SNode.children = some [rootIdx] := by
  obtain ⟨nd, hnd⟩ : ∃ nd, st.get? instanceIdx = some nd := by
    cases hg : st.get? instanceIdx with
    | none => exact absurd (List.get?_eq_none.mp hg) (by omega)
    | some nd => exact ⟨nd, rfl⟩
  have hg0 : (setInstanceChildrenToTemplateRoot st instanceIdx rootIdx).get? instanceIdx
      = some { nd with children := [rootIdx] } := by
    unfold setInstanceChildrenToTemplateRoot
    rw [modifyNode_get_self st instanceIdx _ hinst, hnd]
    rfl
  have len0 : (setInstanceChildrenToTemplateRoot st instanceIdx rootIdx).length
      = st.length := by
    unfold setInstanceChildrenToTemplateRoot
    exact modifyNode_length st instanceIdx _
  have hne0 : ∀ j, j ≠ instanceIdx →
      (setInstanceChildrenToTemplateRoot st instanceIdx rootIdx).get? j = st.get? j := by
    intro j hj
    unfold setInstanceChildrenToTemplateRoot
    exact modifyNode_get_ne st instanceIdx _ j hj
  have hempty : usage.isEmpty = false := by
    cases usage with
    | nil => exact absurd rfl husage
    | cons a l => rfl
  have hres : finalizeInstanceAndSlotChildren fuel st instanceIdx rootIdx usage
      = (usage.foldl (fun acc u => setParentTo acc u slotIdx)
          (appendChildrenTo (setInstanceChildrenToTemplateRoot st instanceIdx rootIdx)
            slotIdx usage), false) := by
    unfold finalizeInstanceAndSlotChildren slotKryUsageChildren
    simp only [hempty, Bool.false_eq_true, if_false, hg0, List.head?_cons]
    rw [hfind]
  rw [hres]
  refine ⟨rfl, ?_, ?_, ?_, ?_⟩
  · rw [foldl_setParent_map_children]
    unfold appendChildrenTo
    rw [modifyNode_get_self _ slotIdx _ (by rw [len0]; exact hslot)]
    rw [hne0 slotIdx hslot_ne_inst]
    cases st.get? slotIdx with
    | none => rfl
    | some snd => rfl
  · intro u hu
    refine foldl_setParent_parent usage slotIdx u hu _ ?_
    unfold appendChildrenTo
    rw [modifyNode_length, len0]
    exact (hfresh u hu).1
  · rw [foldl_setParent_map_children]
    unfold appendChildrenTo
    have h1 := modifyNode_get_ne (setInstanceChildrenToTemplateRoot st instanceIdx rootIdx)
      slotIdx (fun x => { x with children := x.children ++ usage }) rootIdx
      (fun he => hslot_ne_root he.symm)
    rw [h1, hne0 rootIdx hroot_ne_inst]
  · rw [foldl_setParent_map_children]
    unfold appendChildrenTo
    have h1 := modifyNode_get_ne (setInstanceChildrenToTemplateRoot st instanceIdx rootIdx)
      slotIdx (fun x => { x with children := x.children ++ usage }) instanceIdx
      (fun he => hslot_ne_inst he.symm)
    rw [h1, hg0]
    rfl

/-- The C3 demo store: instance 0 over template root 1 (a container) over
slot 2 (id children_host), with three stashed phase-1 usage children 3, 4
and 5. -/
def slotDemoStore : List SNode :=
  [⟨"widget", .container, 0, [1], none, visInit phase1InitialTextAlignment⟩,
   ⟨"root_panel", .container, 0, [2], some 0, visInit expandInitialTextAlignment⟩,
   ⟨"children_host", .container, 0, [], some 1, visInit expandInitialTextAlignment⟩,
   ⟨"a", .text, 0, [], none, visInit phase1InitialTextAlignment⟩,
   ⟨"b", .text, 0, [], none, visInit phase1InitialTextAlignment⟩,
   ⟨"c", .text, 0, [], none, visInit phase1InitialTextAlignment⟩]

/-- Witness for C3: the three usage children land exactly under the slot,
re-parented to it; the template root holds only the slot; the instance holds
only the template root. -/
theorem expandComponent_slotInsertion_witness :
    (finalizeInstanceAndSlotChildren 10 slotDemoStore 0 1 [3, 4, 5]).2 = false ∧
    ((finalizeInstanceAndSlotChildren 10 slotDemoStore 0 1 [3, 4, 5]).1.get? 2).map
      SNode.children = some [3, 4, 5] ∧
    ((finalizeInstanceAndSlotChildren 10 slotDemoStore 0 1 [3, 4, 5]).1.get? 4).map
      SNode.parent = some (some 2) ∧
    ((finalizeInstanceAndSlotChildren 10 slotDemoStore 0 1 [3, 4, 5]).1.get? 1).map
      SNode.children = some [2] ∧
    ((finalizeInstanceAndSlotChildren 10 slotDemoStore 0 1 [3, 4, 5]).1.get? 0).map
      SNode.children = some [1] := by
  have h := expandComponent_slotInsertion 10 slotDemoStore 0 1 2 [3, 4, 5]
    (by decide) (by decide) (by decide) (by decide) (by decide) (by decide)
    (by decide) (by decide)
  refine ⟨h.1, ?_, h.2.2.1 4 (by decide), ?_, h.2.2.2.2⟩
  · rw [h.2.1]; decide
  · rw [h.2.2.2.1]; decide

/-- C4: expanding an instance with usage-children but no slot-named node in
the template appends the usage-children under the template root exactly when
the template root's type is Container; otherwise the store is left untouched
by the slotting (the usage children keep their previous parent, i.e. remain
unparented) and the degraded outcome is recorded.  Both branches return
normally in the source (nil error): the modelled operation is total and
produces a store in either case. -/
theorem expandComponent_missingSlot
    (fuel : Nat) (st : List SNode) (instanceIdx rootIdx : Nat) (usage : List Nat)
    (hinst : instanceIdx < st.length)
    (hroot_ne_inst : rootIdx ≠ instanceIdx)
    (husage : usage ≠ [])
    (hfresh : ∀ u ∈ usage, u < st.length ∧ u ≠ rootIdx ∧ u ≠ instanceIdx)
    (hfind : findSlotElement (setInstanceChildrenToTemplateRoot st instanceIdx rootIdx)
      fuel [rootIdx] [] = none) :
    ((st.get? rootIdx).map SNode.etype = some ElemType.container →
      (finalizeInstanceAndSlotChildren fuel st instanceIdx rootIdx usage).2 = false ∧
      ((finalizeInstanceAndSlotChildren fuel st instanceIdx rootIdx usage).1.get?
          rootIdx).map SNode.children
        = (st.get? rootIdx).map (fun nd => nd.children ++ usage) ∧
      (∀ u ∈ usage,
        ((finalizeInstanceAndSlotChildren fuel st instanceIdx rootIdx usage).1.get? u).map
          SNode.parent = some (some rootIdx))) ∧
    (¬ (st.get? rootIdx).map SNode.etype = some ElemType.container →
      (finalizeInstanceAndSlotChildren fuel st instanceIdx rootIdx usage).2 = true ∧
      (finalizeInstanceAndSlotChildren fuel st instanceIdx rootIdx usage).1
        = setInstanceChildrenToTemplateRoot st instanceIdx rootIdx ∧
      (∀ u ∈ usage,
        ((finalizeInstanceAndSlotChildren fuel st instanceIdx rootIdx usage).1.get? u).map
          SNode.parent = (st.get? u).map SNode.parent)) := by
  obtain ⟨nd, hnd⟩ : ∃ nd, st.get? instanceIdx = some nd := by
    cases hg : st.get? instanceIdx with
    | none => exact absurd (List.get?_eq_none.mp hg) (by omega)
    | some nd => exact ⟨nd, rfl⟩
  have hg0 : (setInstanceChildrenToTemplateRoot st instanceIdx rootIdx).get? instanceIdx
      = some { nd with children := [rootIdx] } := by
    unfold setInstanceChildrenToTemplateRoot
    rw [modifyNode_get_self st instanceIdx _ hinst, hnd]
    rfl
  have len0 : (setInstanceChildrenToTemplateRoot st instanceIdx rootIdx).length
      = st.length := by
    unfold setInstanceChildrenToTemplateRoot
    exact modifyNode_length st instanceIdx _
  have hne0 : ∀ j, j ≠ instanceIdx →
      (setInstanceChildrenToTemplateRoot st instanceIdx rootIdx).get? j = st.get? j := by
    intro j hj
    unfold setInstanceChildrenToTemplateRoot
    exact modifyNode_get_ne st instanceIdx _ j hj
  have hempty : usage.isEmpty = false := by
    cases usage with
    | nil => exact absurd rfl husage
    | cons a l => rfl
  constructor
  · intro hcont
    have hres : finalizeInstanceAndSlotChildren fuel st instanceIdx rootIdx usage
        = (usage.foldl (fun acc u => setParentTo acc u rootIdx)
            (appendChildrenTo (setInstanceChildrenToTemplateRoot st instanceIdx rootIdx)
              rootIdx usage), false) := by
      unfold finalizeInstanceAndSlotChildren slotKryUsageChildren
      simp only [hempty, Bool.false_eq_true, if_false, hg0, List.head?_cons]
      rw [hfind]
      simp only [Option.some_bind', List.head?_cons]
      rw [hne0 rootIdx hroot_ne_inst, if_pos hcont]
    rw [hres]
    refine ⟨rfl, ?_, ?_⟩
    · rw [foldl_setParent_map_children]
      unfold appendChildrenTo
      have hrlen : rootIdx < st.length := by
        by_contra hr
        rw [List.get?_eq_none.mpr (by omega)] at hcont
        exact absurd hcont (by simp)
      rw [modifyNode_get_self _ rootIdx _ (by rw [len0]; exact hrlen)]
      rw [hne0 rootIdx hroot_ne_inst]
      cases st.get? rootIdx with
      | none => rfl
      | some snd => rfl
    · intro u hu
      refine foldl_setParent_parent usage rootIdx u hu _ ?_
      unfold appendChildrenTo
      rw [modifyNode_length, len0]
      exact (hfresh u hu).1
  · intro hcont
    have hres : finalizeInstanceAndSlotChildren fuel st instanceIdx rootIdx usage
        = (setInstanceChildrenToTemplateRoot st instanceIdx rootIdx, true) := by
      unfold finalizeInstanceAndSlotChildren slotKryUsageChildren
      simp only [hempty, Bool.false_eq_true, if_false, hg0, List.head?_cons]
      rw [hfind]
      simp only [Option.some_bind', List.head?_cons]
      rw [hne0 rootIdx hroot_ne_inst, if_neg hcont]
    rw [hres]
    refine ⟨rfl, rfl, ?_⟩
    · intro u hu
      rw [hne0 u (hfresh u hu).2.2]

/-- The C4 demo store: instance 0 over a container template root 1 with no
slot-named node anywhere, and two stashed usage children 2 and 3. -/
def missingSlotDemoStore : List SNode :=
  [⟨"widget", .container, 0, [1], none, visInit phase1InitialTextAlignment⟩,
   ⟨"root_panel", .container, 0, [], some 0, visInit expandInitialTextAlignment⟩,
   ⟨"a", .text, 0, [], none, visInit phase1InitialTextAlignment⟩,
   ⟨"b", .text, 0, [], none, visInit phase1InitialTextAlignment⟩]

/-- Witness for C4, container branch: with no slot and a Container template
root the two usage children are appended under the root and re-parented to
it, with no degraded outcome. -/
theorem expandComponent_missingSlot_witness :
    (missingSlotDemoStore.get? 1).map SNode.etype = some ElemType.container ∧
    (finalizeInstanceAndSlotChildren 10 missingSlotDemoStore 0 1 [2, 3]).2 = false ∧
    ((finalizeInstanceAndSlotChildren 10 missingSlotDemoStore 0 1 [2, 3]).1.get? 1).map
      SNode.children = some [2, 3] ∧
    ((finalizeInstanceAndSlotChildren 10 missingSlotDemoStore 0 1 [2, 3]).1.get? 2).map
      SNode.parent = some (some 1) := by
  have h := (expandComponent_missingSlot 10 missingSlotDemoStore 0 1 [2, 3]
    (by decide) (by decide) (by decide) (by decide) (by decide)).1 (by decide)
  refine ⟨by decide, h.1, ?_, h.2.2 2 (by decide)⟩
  rw [h.2.1]
  decide

/-! ## C9 — ReResolveElementVisuals (part_001 lines 395-495)

The document data the re-resolution reads: the style table and the
per-element direct property lists.  findStyle and getStylePropertyValue are
helpers not under the analysed sources, modelled from the spec: style-id 0
means no style, a style id resolves through the style table, and a style
property lookup returns the first matching property of the style's ordered
list. -/

/-- The invariants of the claim on the arena: child indices in range, a
node's Parent names exactly the nodes whose Children list contains it (so
every node except the parent-less roots has exactly one parent and no node
sits in the children lists of two different parents), children lists are
duplicate-free, and the parent/child relation is acyclic.
finalizeTreeStructureAndRoots declares exactly the parent-none nodes as
roots, so the claim's root clause is the parent-none case of parentIff. -/
structure StoreInv (st : List SNode) : Prop where
  childLt : ∀ i nd, st.get? i = some nd → ∀ c ∈ nd.children, c < st.length
  parentIff : ∀ i j, childEdge st i j ↔ (st.get? j).map SNode.parent = some (some i)
  nodupChildren : ∀ i nd, st.get? i = some nd → nd.children.Nodup
  acyclic : ∀ i, ¬ Relation.TransGen (childEdge st) i i

/-- The arena as it stands after linkOriginalKrbChildren: element i carries
the children list the linker attached and the Parent pointer the ascending
assignment loop left.  Only Children and Parent matter to the invariants;
name, type, style and visual state are phase-1 values irrelevant here. -/
def linkedStore (d : KrbDoc) : List SNode :=
  (List.range d.elementCount).map (fun i =>
    ⟨"", .container, 0, linkChildrenOf d i, linkParentOf d i,
      visInit phase1InitialTextAlignment⟩)

theorem linkedStore_length (d : KrbDoc) :
    (linkedStore d).length = d.elementCount := by
  unfold linkedStore
  rw [List.length_map, List.length_range]

theorem linkedStore_get (d : KrbDoc) (i : Nat) (h : i < d.elementCount) :
    (linkedStore d).get? i = some ⟨"", .container, 0, linkChildrenOf d i,
      linkParentOf d i, visInit phase1InitialTextAlignment⟩ := by
  unfold linkedStore
  rw [List.get?_map, List.get?_range h]
  rfl

theorem linkedStore_get_none (d : KrbDoc) (i : Nat) (h : d.elementCount ≤ i) :
    (linkedStore d).get? i = none := by
  rw [List.get?_eq_none]
  rw [linkedStore_length]
  exact h

/-- One component expansion on the arena, exactly as expandComponent leaves
it: Pass 1-2 append the template block — its internal Parent/Children edges
already linked, its root's Parent pointing at the instance (line 1961 / 496)
— at the end of the flat collection, then the instance's children list
becomes exactly the template root (lines 683-701) and the stashed KRY-usage
children are slotted (lines 704-771). -/
def expandStep (fuel : Nat) (st : List SNode) (instanceIdx : Nat)
    (block : List SNode) (usage : List Nat) : List SNode × Bool :=
  finalizeInstanceAndSlotChildren fuel (st ++ block) instanceIdx st.length usage

/-- The default node getD reads through in the bounded-quantifier
hypotheses. -/
def blankNode : SNode := ⟨"", .container, 0, [], none, visInit phase1InitialTextAlignment⟩

/-- A node with an empty children list reaches nothing but itself. -/
theorem not_reach_of_no_children (st : List SNode) (u : Nat)
    (hch : (st.get? u).map SNode.children = some []) (v : Nat) (huv : u ≠ v) :
    ¬ Relation.ReflTransGen (childEdge st) u v := by
  intro h
  rcases Relation.ReflTransGen.cases_head h with heq | ⟨c, hedge, _⟩
  · exact huv heq
  · obtain ⟨nd, hnd, hmem⟩ := hedge
    rw [hnd] at hch
    have hnil : nd.children = [] := by simpa using hch
    rw [hnil] at hmem
    exact absurd hmem (List.not_mem_nil c)

/-- What the expander establishes before the slotting tail runs: the
instance exists with its original children stashed away (empty list), the
appended template block is internally linked — child edges strictly forward
inside the block, parent pointers matching membership, the root's parent
being the instance — and the stashed usage children are in-range, currently
parent-less, duplicate-free original elements that do not reach the instance
along children lists. -/
structure ExpandPre (st : List SNode) (instanceIdx : Nat) (block : List SNode)
    (usage : List Nat) : Prop where
  inst_lt : instanceIdx < st.length
  inst_children : (st.get? instanceIdx).map SNode.children = some []
  block_ne : block ≠ []
  root_parent : (block.get? 0).map SNode.parent = some (some instanceIdx)
  block_fwd : ∀ k, k < block.length → ∀ c ∈ (block.getD k blankNode).children,
    st.length + k < c ∧ c < st.length + block.length
  block_parentIff : ∀ k, k < block.length → ∀ m, m < block.length →
    ((st.length + k) ∈ (block.getD m blankNode).children ↔
      (block.getD k blankNode).parent = some (st.length + m))
  block_parent_range : ∀ k, k < block.length → 0 < k →
    ∃ m, m < block.length ∧ (block.getD k blankNode).parent = some (st.length + m)
  block_nodup : ∀ k, k < block.length → (block.getD k blankNode).children.Nodup
  usage_lt : ∀ u ∈ usage, u < st.length
  usage_unparented : ∀ u ∈ usage, (st.get? u).map SNode.parent = some none
  usage_nodup : usage.Nodup
  usage_noreach : ∀ u ∈ usage, ¬ Relation.ReflTransGen (childEdge st) u instanceIdx

/-- The store after appending the template block and pointing the instance
at the template root, before the usage children are slotted. -/
def postAppendStore (st : List SNode) (instanceIdx : Nat) (block : List SNode) :
    List SNode :=
  setInstanceChildrenToTemplateRoot (st ++ block) instanceIdx st.length

theorem postAppendStore_length (st : List SNode) (instanceIdx : Nat)
    (block : List SNode) :
    (postAppendStore st instanceIdx block).length = st.length + block.length := by
  unfold postAppendStore setInstanceChildrenToTemplateRoot
  rw [modifyNode_length, List.length_append]

theorem postAppendStore_get_old (st : List SNode) (instanceIdx : Nat)
    (block : List SNode) (j : Nat) (hj : j < st.length) (hne : j ≠ instanceIdx) :
    (postAppendStore st instanceIdx block).get? j = st.get? j := by
  unfold postAppendStore setInstanceChildrenToTemplateRoot
  rw [modifyNode_get_ne _ instanceIdx _ j hne]
  exact List.get?_append hj

theorem postAppendStore_get_inst (st : List SNode) (instanceIdx : Nat)
    (block : List SNode) (el : SNode) (hel : st.get? instanceIdx = some el) :
    (postAppendStore st instanceIdx block).get? instanceIdx
      = some { el with children := [st.length] } := by
  have hlt : instanceIdx < st.length := by
    by_contra hge
    rw [List.get?_eq_none.mpr (by omega)] at hel
    exact absurd hel (by simp)
  have hlt2 : instanceIdx < (st ++ block).length := by
    rw [List.length_append]; omega
  unfold postAppendStore setInstanceChildrenToTemplateRoot
  rw [modifyNode_get_self _ instanceIdx _ hlt2, List.get?_append hlt, hel]
  rfl

theorem postAppendStore_get_block (st : List SNode) (instanceIdx : Nat)
    (block : List SNode) (hinst : instanceIdx < st.length) (j : Nat)
    (hj : st.length ≤ j) :
    (postAppendStore st instanceIdx block).get? j = block.get? (j - st.length) := by
  have hne : j ≠ instanceIdx := by omega
  unfold postAppendStore setInstanceChildrenToTemplateRoot
  rw [modifyNode_get_ne _ instanceIdx _ j hne]
  exact List.get?_append_right hj

theorem getD_eq_of_get? {l : List SNode} {k : Nat} {nd : SNode}
    (h : l.get? k = some nd) : l.getD k blankNode = nd := by
  unfold List.getD
  rw [h]
  rfl

theorem get?_lt_of_some {l : List SNode} {k : Nat} {nd : SNode}
    (h : l.get? k = some nd) : k < l.length := by
  by_contra hge
  rw [List.get?_eq_none.mpr (by omega)] at h
  exact absurd h (by simp)

/-- Every edge of the post-append store is an old edge between non-instance
original nodes, the new instance-to-root edge, or a strictly forward edge
inside the appended block. -/
theorem postAppend_edge_cases {st : List SNode} {instanceIdx : Nat}
    {block : List SNode} {usage : List Nat} (hinv : StoreInv st)
    (pre : ExpandPre st instanceIdx block usage) {a b : Nat}
    (h : childEdge (postAppendStore st instanceIdx block) a b) :
    (a < st.length ∧ a ≠ instanceIdx ∧ b < st.length ∧ childEdge st a b) ∨
    (a = instanceIdx ∧ b = st.length) ∨
    (st.length ≤ a ∧ a < b ∧ b < st.length + block.length) := by
  obtain ⟨nd, hget, hmem⟩ := h
  rcases lt_or_ge a st.length with ha | ha
  · by_cases hai : a = instanceIdx
    · subst hai
      obtain ⟨el, hel⟩ : ∃ el, st.get? a = some el := by
        cases hg : st.get? a with
        | none =>
          have hic := pre.inst_children
          rw [hg] at hic
          exact absurd hic (by simp)
        | some el => exact ⟨el, rfl⟩
      rw [postAppendStore_get_inst st a block el hel] at hget
      cases hget
      have : b = st.length := by simpa using hmem
      exact Or.inr (Or.inl ⟨rfl, this⟩)
    · rw [postAppendStore_get_old st instanceIdx block a ha hai] at hget
      have hedge : childEdge st a b := ⟨nd, hget, hmem⟩
      exact Or.inl ⟨ha, hai, hinv.childLt a nd hget b hmem, hedge⟩
  · rw [postAppendStore_get_block st instanceIdx block pre.inst_lt a ha] at hget
    have hk : a - st.length < block.length := get?_lt_of_some hget
    have hfw := pre.block_fwd (a - st.length) hk b (by rw [getD_eq_of_get? hget]; exact hmem)
    refine Or.inr (Or.inr ⟨ha, ?_, hfw.2⟩)
    omega

/-- A path of the post-append store ending below the append boundary uses
only original edges. -/
theorem postAppend_reach_low {st : List SNode} {instanceIdx : Nat}
    {block : List SNode} {usage : List Nat} (hinv : StoreInv st)
    (pre : ExpandPre st instanceIdx block usage) {a b : Nat}
    (h : Relation.ReflTransGen (childEdge (postAppendStore st instanceIdx block)) a b) :
    b < st.length → Relation.ReflTransGen (childEdge st) a b := by
  induction h with
  | refl => intro _; exact Relation.ReflTransGen.refl
  | tail hab hedge ih =>
    intro hb
    rcases postAppend_edge_cases hinv pre hedge with
      ⟨hx, _, _, he⟩ | ⟨_, hy⟩ | ⟨hx, hxy, _⟩
    · exact Relation.ReflTransGen.tail (ih hx) he
    · omega
    · omega

/-- Inside the appended block, paths strictly increase and never leave it. -/
theorem postAppend_transGen_high {st : List SNode} {instanceIdx : Nat}
    {block : List SNode} {usage : List Nat} (hinv : StoreInv st)
    (pre : ExpandPre st instanceIdx block usage) {a b : Nat}
    (h : Relation.TransGen (childEdge (postAppendStore st instanceIdx block)) a b) :
    st.length ≤ a → st.length ≤ b ∧ a < b := by
  induction h with
  | single hedge =>
    intro ha
    rcases postAppend_edge_cases hinv pre hedge with
      ⟨hx, _, _, _⟩ | ⟨hx, _⟩ | ⟨_, hxy, _⟩
    · omega
    · have := pre.inst_lt
      omega
    · omega
  | tail hab hedge ih =>
    intro ha
    have h1 := ih ha
    rcases postAppend_edge_cases hinv pre hedge with
      ⟨hx, _, _, _⟩ | ⟨hx, _⟩ | ⟨_, hxy, _⟩
    · omega
    · have := pre.inst_lt
      omega
    · omega

/-- A path crossing the append boundary passes through the instance, and up
to there uses only original edges. -/
theorem postAppend_reach_cross {st : List SNode} {instanceIdx : Nat}
    {block : List SNode} {usage : List Nat} (hinv : StoreInv st)
    (pre : ExpandPre st instanceIdx block usage) {a b : Nat}
    (h : Relation.ReflTransGen (childEdge (postAppendStore st instanceIdx block)) a b) :
    a < st.length → st.length ≤ b → Relation.ReflTransGen (childEdge st) a instanceIdx := by
  induction h with
  | refl =>
    intro ha hb
    exact absurd hb (not_le.mpr ha)
  | tail hab hedge ih =>
    intro ha hy
    rename_i x y
    rcases lt_or_ge x st.length with hx | hx
    · rcases postAppend_edge_cases hinv pre hedge with
        ⟨_, _, hylt, _⟩ | ⟨hxi, _⟩ | ⟨hx2, _, _⟩
      · exact absurd hylt (not_lt.mpr hy)
      · subst hxi
        exact postAppend_reach_low hinv pre hab pre.inst_lt
      · exact absurd hx2 (not_le.mpr hx)
    · exact ih ha hx

theorem get?_some_of_lt {l : List SNode} {k : Nat} (h : k < l.length) :
    ∃ nd, l.get? k = some nd := by
  cases hg : l.get? k with
  | none => exact absurd (List.get?_eq_none.mp hg) (by omega)
  | some nd => exact ⟨nd, rfl⟩

/-- Parent pointers of the original nodes are untouched by the append and
the instance-children rewrite. -/
theorem postAppendStore_parent_old (st : List SNode) (instanceIdx : Nat)
    (block : List SNode) (j : Nat) (hj : j < st.length) :
    ((postAppendStore st instanceIdx block).get? j).map SNode.parent
      = (st.get? j).map SNode.parent := by
  by_cases hji : j = instanceIdx
  · subst hji
    obtain ⟨el, hel⟩ := get?_some_of_lt hj
    rw [postAppendStore_get_inst st j block el hel, hel]
    rfl
  · rw [postAppendStore_get_old st instanceIdx block j hj hji]

/-- Edges into the original region are exactly the original edges. -/
theorem postAppend_edge_low_iff {st : List SNode} {instanceIdx : Nat}
    {block : List SNode} {usage : List Nat} (hinv : StoreInv st)
    (pre : ExpandPre st instanceIdx block usage) {i j : Nat} (hj : j < st.length) :
    childEdge (postAppendStore st instanceIdx block) i j ↔ childEdge st i j := by
  constructor
  · intro h
    rcases postAppend_edge_cases hinv pre h with ⟨_, _, _, he⟩ | ⟨_, hy⟩ | ⟨hx, hxy, _⟩
    · exact he
    · omega
    · omega
  · rintro ⟨nd, hget, hmem⟩
    have hi : i < st.length := get?_lt_of_some hget
    have hii : i ≠ instanceIdx := by
      intro he
      subst he
      have hic := pre.inst_children
      rw [hget] at hic
      have hnil : nd.children = [] := by simpa using hic
      rw [hnil] at hmem
      exact absurd hmem (List.not_mem_nil j)
    refine ⟨nd, ?_, hmem⟩
    rw [postAppendStore_get_old st instanceIdx block i hi hii]
    exact hget

/-- Appending an internally linked template block and pointing the instance
at its root preserves the tree-shape invariants. -/
theorem storeInv_postAppend {st : List SNode} {instanceIdx : Nat}
    {block : List SNode} {usage : List Nat} (hinv : StoreInv st)
    (pre : ExpandPre st instanceIdx block usage) :
    StoreInv (postAppendStore st instanceIdx block) := by
  have hlen := postAppendStore_length st instanceIdx block
  have hblen : 0 < block.length := List.length_pos.mpr pre.block_ne
  constructor
  · -- childLt
    intro i nd hget c hc
    rw [hlen]
    rcases lt_or_ge i st.length with hi | hi
    · by_cases hii : i = instanceIdx
      · subst hii
        obtain ⟨el, hel⟩ := get?_some_of_lt hi
        rw [postAppendStore_get_inst st i block el hel] at hget
        cases hget
        have hcn : c = st.length := by simpa using hc
        omega
      · rw [postAppendStore_get_old st instanceIdx block i hi hii] at hget
        have := hinv.childLt i nd hget c hc
        omega
    · rw [postAppendStore_get_block st instanceIdx block pre.inst_lt i hi] at hget
      have hk := get?_lt_of_some hget
      have := (pre.block_fwd (i - st.length) hk c
        (by rw [getD_eq_of_get? hget]; exact hc)).2
      omega
  · -- parentIff
    intro i j
    rcases lt_or_ge j st.length with hj | hj
    · rw [postAppendStore_parent_old st instanceIdx block j hj,
        postAppend_edge_low_iff hinv pre hj]
      exact hinv.parentIff i j
    · rcases lt_or_ge j (st.length + block.length) with hj2 | hj2
      · have hk : j - st.length < block.length := by omega
        obtain ⟨nd, hget⟩ := get?_some_of_lt hk
        have hSj : (postAppendStore st instanceIdx block).get? j = some nd := by
          rw [postAppendStore_get_block st instanceIdx block pre.inst_lt j hj]
          exact hget
        by_cases hj0 : j = st.length
        · -- the template root
          subst hj0
          have h0 : block.get? 0 = some nd := by simpa using hget
          have hpar : nd.parent = some instanceIdx := by
            have hrp := pre.root_parent
            rw [h0] at hrp
            simpa using hrp
          rw [hSj]
          simp only [Option.map_some']
          constructor
          · intro h
            rcases postAppend_edge_cases hinv pre h with
              ⟨_, _, hy, _⟩ | ⟨hxi, _⟩ | ⟨hx, hxy, _⟩
            · omega
            · subst hxi
              rw [hpar]
            · omega
          · intro h
            have hi : instanceIdx = i := by
              rw [hpar] at h
              exact Option.some.inj (Option.some.inj h)
            subst hi
            obtain ⟨el, hel⟩ := get?_some_of_lt pre.inst_lt
            exact ⟨{ el with children := [st.length] },
              postAppendStore_get_inst st instanceIdx block el hel, by simp⟩
        · -- a non-root template element
          have hk1 : 0 < j - st.length := by omega
          obtain ⟨m, hm, hpm⟩ := pre.block_parent_range (j - st.length) hk hk1
          have hpar : nd.parent = some (st.length + m) := by
            rw [getD_eq_of_get? hget] at hpm
            exact hpm
          rw [hSj]
          simp only [Option.map_some']
          constructor
          · rintro ⟨ndi, hgi, hmemi⟩
            rcases lt_or_ge i st.length with hi | hi
            · by_cases hii : i = instanceIdx
              · subst hii
                obtain ⟨el, hel⟩ := get?_some_of_lt hi
                rw [postAppendStore_get_inst st i block el hel] at hgi
                cases hgi
                have : j = st.length := by simpa using hmemi
                exact absurd this hj0
              · rw [postAppendStore_get_old st instanceIdx block i hi hii] at hgi
                have := hinv.childLt i ndi hgi j hmemi
                omega
            · rw [postAppendStore_get_block st instanceIdx block pre.inst_lt i hi]
                at hgi
              have hki := get?_lt_of_some hgi
              have hmemD : (st.length + (j - st.length))
                  ∈ (block.getD (i - st.length) blankNode).children := by
                rw [getD_eq_of_get? hgi]
                have hj' : st.length + (j - st.length) = j := by omega
                rw [hj']
                exact hmemi
              have hp := (pre.block_parentIff (j - st.length) hk (i - st.length)
                hki).mp hmemD
              rw [getD_eq_of_get? hget] at hp
              rw [hpar] at hp
              have : st.length + m = st.length + (i - st.length) :=
                Option.some.inj hp
              rw [hpar]
              have : i = st.length + m := by omega
              rw [this]
          · intro h
            have hi : i = st.length + m := by
              rw [hpar] at h
              have := Option.some.inj (Option.some.inj h)
              omega
            subst hi
            obtain ⟨ndm, hgm⟩ := get?_some_of_lt hm
            have hpm2 : (block.getD (j - st.length) blankNode).parent
                = some (st.length + m) := hpm
            have hmemD := (pre.block_parentIff (j - st.length) hk m hm).mpr hpm2
            refine ⟨ndm, ?_, ?_⟩
            · rw [postAppendStore_get_block st instanceIdx block pre.inst_lt
                (st.length + m) (by omega)]
              have hmm : st.length + m - st.length = m := by omega
              rw [hmm]
              exact hgm
            · rw [getD_eq_of_get? hgm] at hmemD
              have hj' : st.length + (j - st.length) = j := by omega
              rw [hj'] at hmemD
              exact hmemD
      · -- beyond the block: no node
        have hnone : (postAppendStore st instanceIdx block).get? j = none := by
          rw [List.get?_eq_none]
          omega
        rw [hnone]
        simp only [Option.map_none']
        constructor
        · intro h
          exfalso
          rcases postAppend_edge_cases hinv pre h with
            ⟨_, _, hy, _⟩ | ⟨_, hy⟩ | ⟨_, _, hy⟩
          · omega
          · omega
          · omega
        · intro h
          exact absurd h (by simp)
  · -- nodupChildren
    intro i nd hget
    rcases lt_or_ge i st.length with hi | hi
    · by_cases hii : i = instanceIdx
      · subst hii
        obtain ⟨el, hel⟩ := get?_some_of_lt hi
        rw [postAppendStore_get_inst st i block el hel] at hget
        cases hget
        simp
      · rw [postAppendStore_get_old st instanceIdx block i hi hii] at hget
        exact hinv.nodupChildren i nd hget
    · rw [postAppendStore_get_block st instanceIdx block pre.inst_lt i hi] at hget
      have hk := get?_lt_of_some hget
      have := pre.block_nodup (i - st.length) hk
      rw [getD_eq_of_get? hget] at this
      exact this
  · -- acyclic
    intro x hcyc
    rcases lt_or_ge x st.length with hx | hx
    · cases hcyc with
      | single hedge =>
        rcases postAppend_edge_cases hinv pre hedge with
          ⟨_, _, _, he⟩ | ⟨hxi, hy⟩ | ⟨hx2, _, _⟩
        · exact hinv.acyclic x (Relation.TransGen.single he)
        · have := pre.inst_lt
          omega
        · omega
      | tail hab hedge =>
        rename_i b
        rcases postAppend_edge_cases hinv pre hedge with
          ⟨hb, _, _, he⟩ | ⟨hbi, hxn⟩ | ⟨hb2, hbx, _⟩
        · have hr := postAppend_reach_low hinv pre hab.to_reflTransGen hb
          exact hinv.acyclic x (Relation.TransGen.tail' hr he)
        · omega
        · omega
    · have := postAppend_transGen_high hinv pre hcyc hx
      omega

theorem childEdge_iff_of_map {a b : List SNode} {i : Nat}
    (h : (a.get? i).map SNode.children = (b.get? i).map SNode.children) (j : Nat) :
    childEdge a i j ↔ childEdge b i j := by
  unfold childEdge
  cases ha : a.get? i with
  | none =>
    rw [ha] at h
    cases hb : b.get? i with
    | none => simp
    | some m => rw [hb] at h; exact absurd h (by simp)
  | some nd =>
    rw [ha] at h
    cases hb : b.get? i with
    | none => rw [hb] at h; exact absurd h (by simp)
    | some m =>
      rw [hb] at h
      have hchildren : nd.children = m.children := by simpa using h
      constructor
      · rintro ⟨nd', hnd', hy⟩
        cases hnd'
        exact ⟨m, rfl, hchildren ▸ hy⟩
      · rintro ⟨m', hm', hy⟩
        cases hm'
        exact ⟨nd, rfl, hchildren.symm ▸ hy⟩

/-- Appending parent-less, unreachable nodes under a target and re-parenting
them to it preserves the tree-shape invariants — the common core of the
slot-found and container-fallback branches of the slotting tail. -/
theorem storeInv_attach (T : List SNode) (hT : StoreInv T) (w : Nat)
    (usage : List Nat) (hw : w < T.length)
    (husage_lt : ∀ u ∈ usage, u < T.length)
    (hupar : ∀ u ∈ usage, (T.get? u).map SNode.parent = some none)
    (hnodup : usage.Nodup)
    (hnoreach : ∀ u ∈ usage, ¬ Relation.ReflTransGen (childEdge T) u w) :
    StoreInv (usage.foldl (fun acc u => setParentTo acc u w)
      (appendChildrenTo T w usage)) := by
  have hwu : w ∉ usage := fun hmem => hnoreach w hmem Relation.ReflTransGen.refl
  obtain ⟨ndw, hndw⟩ := get?_some_of_lt hw
  have hlen4 : (appendChildrenTo T w usage).length = T.length := by
    unfold appendChildrenTo
    exact modifyNode_length T w _
  have hlen5 : (usage.foldl (fun acc u => setParentTo acc u w)
      (appendChildrenTo T w usage)).length = T.length := by
    rw [foldl_setParent_length usage w (appendChildrenTo T w usage), hlen4]
  have hT4w : (appendChildrenTo T w usage).get? w
      = some { ndw with children := ndw.children ++ usage } := by
    unfold appendChildrenTo
    rw [modifyNode_get_self T w _ hw, hndw]
    rfl
  have hT5w : (usage.foldl (fun acc u => setParentTo acc u w)
      (appendChildrenTo T w usage)).get? w
      = some { ndw with children := ndw.children ++ usage } := by
    rw [foldl_setParent_get_notMem usage w w hwu]
    exact hT4w
  have hT5_other : ∀ j, j ∉ usage → j ≠ w →
      (usage.foldl (fun acc u => setParentTo acc u w)
        (appendChildrenTo T w usage)).get? j = T.get? j := by
    intro j hju hjw
    rw [foldl_setParent_get_notMem usage w j hju]
    unfold appendChildrenTo
    exact modifyNode_get_ne T w _ j hjw
  have hT5_parent_usage : ∀ u ∈ usage,
      ((usage.foldl (fun acc u => setParentTo acc u w)
        (appendChildrenTo T w usage)).get? u).map SNode.parent = some (some w) := by
    intro u hu
    exact foldl_setParent_parent usage w u hu (appendChildrenTo T w usage)
      (by rw [hlen4]; exact husage_lt u hu)
  have hT5_children_map : ∀ a, a ≠ w →
      ((usage.foldl (fun acc u => setParentTo acc u w)
        (appendChildrenTo T w usage)).get? a).map SNode.children
      = (T.get? a).map SNode.children := by
    intro a haw
    rw [foldl_setParent_map_children usage w a]
    unfold appendChildrenTo
    rw [modifyNode_get_ne T w _ a haw]
  have hT5_parent_other : ∀ j, j ∉ usage →
      ((usage.foldl (fun acc u => setParentTo acc u w)
        (appendChildrenTo T w usage)).get? j).map SNode.parent
      = (T.get? j).map SNode.parent := by
    intro j hju
    rw [foldl_setParent_get_notMem usage w j hju]
    by_cases hjw : j = w
    · subst hjw
      rw [hT4w, hndw]
      rfl
    · unfold appendChildrenTo
      rw [modifyNode_get_ne T w _ j hjw]
  have hedge5 : ∀ a b, childEdge (usage.foldl (fun acc u => setParentTo acc u w)
      (appendChildrenTo T w usage)) a b ↔
      (childEdge T a b ∨ (a = w ∧ b ∈ usage)) := by
    intro a b
    by_cases haw : a = w
    · subst haw
      constructor
      · rintro ⟨nd, hg, hm⟩
        rw [hT5w] at hg
        cases hg
        rcases List.mem_append.mp hm with h | h
        · exact Or.inl ⟨ndw, hndw, h⟩
        · exact Or.inr ⟨rfl, h⟩
      · rintro (⟨nd, hg, hm⟩ | ⟨_, hb⟩)
        · rw [hndw] at hg
          cases hg
          exact ⟨_, hT5w, List.mem_append.mpr (Or.inl hm)⟩
        · exact ⟨_, hT5w, List.mem_append.mpr (Or.inr hb)⟩
    · rw [childEdge_iff_of_map (hT5_children_map a haw) b]
      constructor
      · exact Or.inl
      · rintro (h | ⟨he, _⟩)
        · exact h
        · exact absurd he haw
  have hQ2 : ∀ a b, Relation.ReflTransGen (childEdge (usage.foldl
      (fun acc u => setParentTo acc u w) (appendChildrenTo T w usage))) a b →
      Relation.ReflTransGen (childEdge T) a b ∨
      Relation.ReflTransGen (childEdge T) a w := by
    intro a b h
    induction h with
    | refl => exact Or.inl Relation.ReflTransGen.refl
    | tail hab hedge ih =>
      rename_i y z
      rcases (hedge5 y z).mp hedge with he | ⟨hyw, _⟩
      · rcases ih with h1 | h1
        · exact Or.inl (h1.tail he)
        · exact Or.inr h1
      · subst hyw
        rcases ih with h1 | h1
        · exact Or.inr h1
        · exact Or.inr h1
  have hQ1 : ∀ a b, Relation.ReflTransGen (childEdge (usage.foldl
      (fun acc u => setParentTo acc u w) (appendChildrenTo T w usage))) a b →
      Relation.ReflTransGen (childEdge T) a b ∨
      ∃ u, u ∈ usage ∧ Relation.ReflTransGen (childEdge T) u b ∧
        Relation.ReflTransGen (childEdge (usage.foldl
          (fun acc u => setParentTo acc u w) (appendChildrenTo T w usage))) a w := by
    intro a b h
    induction h with
    | refl => exact Or.inl Relation.ReflTransGen.refl
    | tail hab hedge ih =>
      rename_i y z
      rcases (hedge5 y z).mp hedge with he | ⟨hyw, hzu⟩
      · rcases ih with h1 | ⟨u, hu, hub, haw⟩
        · exact Or.inl (h1.tail he)
        · exact Or.inr ⟨u, hu, hub.tail he, haw⟩
      · subst hyw
        exact Or.inr ⟨z, hzu, Relation.ReflTransGen.refl, hab⟩
  constructor
  · -- childLt
    intro i nd hgi c hc
    rw [hlen5]
    by_cases hiw : i = w
    · subst hiw
      rw [hT5w] at hgi
      cases hgi
      rcases List.mem_append.mp hc with h | h
      · exact hT.childLt i ndw hndw c h
      · exact husage_lt c h
    · have hmap := hT5_children_map i hiw
      rw [hgi] at hmap
      cases hg2 : T.get? i with
      | none => rw [hg2] at hmap; exact absurd hmap (by simp)
      | some nd2 =>
        rw [hg2] at hmap
        have : nd.children = nd2.children := by simpa using hmap
        exact hT.childLt i nd2 hg2 c (this ▸ hc)
  · -- parentIff
    intro i j
    rw [hedge5 i j]
    by_cases hju : j ∈ usage
    · rw [hT5_parent_usage j hju]
      constructor
      · rintro (h | ⟨hiw, _⟩)
        · have hp := (hT.parentIff i j).mp h
          rw [hupar j hju] at hp
          exact absurd (Option.some.inj hp) (by simp)
        · subst hiw
          rfl
      · intro h
        have hwi : w = i := by simpa using h
        exact Or.inr ⟨hwi ▸ rfl, hju⟩
    · rw [hT5_parent_other j hju]
      constructor
      · rintro (h | ⟨_, hju2⟩)
        · exact (hT.parentIff i j).mp h
        · exact absurd hju2 hju
      · intro h
        exact Or.inl ((hT.parentIff i j).mpr h)
  · -- nodupChildren
    intro i nd hgi
    by_cases hiw : i = w
    · subst hiw
      rw [hT5w] at hgi
      cases hgi
      refine List.Nodup.append (hT.nodupChildren i ndw hndw) hnodup ?_
      intro a ha hau
      have hedge : childEdge T i a := ⟨ndw, hndw, ha⟩
      have hp := (hT.parentIff i a).mp hedge
      rw [hupar a hau] at hp
      exact absurd (Option.some.inj hp) (by simp)
    · have hmap := hT5_children_map i hiw
      rw [hgi] at hmap
      cases hg2 : T.get? i with
      | none => rw [hg2] at hmap; exact absurd hmap (by simp)
      | some nd2 =>
        rw [hg2] at hmap
        have : nd.children = nd2.children := by simpa using hmap
        rw [this]
        exact hT.nodupChildren i nd2 hg2
  · -- acyclic
    intro x hcyc
    cases hcyc with
    | single hedge =>
      rcases (hedge5 x x).mp hedge with he | ⟨hxw, hxu⟩
      · exact hT.acyclic x (Relation.TransGen.single he)
      · subst hxw
        exact hwu hxu
    | tail hab hedge =>
      rename_i b
      rcases (hedge5 b x).mp hedge with he | ⟨hbw, hxu⟩
      · rcases hQ1 x b hab.to_reflTransGen with hL | ⟨u, hu, hub, hxw5⟩
        · exact hT.acyclic x (Relation.TransGen.tail' hL he)
        · have hux : Relation.ReflTransGen (childEdge T) u x := hub.tail he
          have hxw : Relation.ReflTransGen (childEdge T) x w := by
            rcases hQ2 x w hxw5 with h | h
            · exact h
            · exact h
          exact hnoreach u hu (hux.trans hxw)
      · rw [hbw] at hab
        rcases hQ2 x w hab.to_reflTransGen with h | h
        · exact hnoreach x hxu h
        · exact hnoreach x hxu h

/-- The breadth-first slot search only ever returns a node reachable from
the initial queue: any property of the queue closed under children holds of
the hit. -/
theorem findSlotElement_closed (st : List SNode) (P : Nat → Prop)
    (hcl : ∀ q, P q → ∀ nd, st.get? q = some nd → ∀ c ∈ nd.children, P c) :
    ∀ (fuel : Nat) (queue visited : List Nat), (∀ q ∈ queue, P q) →
    ∀ w, findSlotElement st fuel queue visited = some w → P w := by
  intro fuel
  induction fuel with
  | zero =>
    intro queue visited _ w h
    exact absurd h (by simp [findSlotElement])
  | succ fuel ih =>
    intro queue visited hq w h
    cases queue with
    | nil => exact absurd h (by simp [findSlotElement])
    | cons q qs =>
      unfold findSlotElement at h
      by_cases hv : q ∈ visited
      · rw [if_pos hv] at h
        exact ih qs visited (fun x hx => hq x (List.mem_cons_of_mem q hx)) w h
      · rw [if_neg hv] at h
        cases hg : st.get? q with
        | none =>
          rw [hg] at h
          exact ih qs (q :: visited) (fun x hx => hq x (List.mem_cons_of_mem q hx)) w h
        | some nd =>
          rw [hg] at h
          have h2 : (if nd.idName = childrenSlotIDName then some q
              else findSlotElement st fuel
                (qs ++ nd.children.filter (fun c => ! visited.contains c))
                (q :: visited)) = some w := h
          by_cases hname : nd.idName = childrenSlotIDName
          · rw [if_pos hname] at h2
            have hqw : q = w := by
              injection h2
            exact hqw ▸ hq q (List.mem_cons_self q qs)
          · rw [if_neg hname] at h2
            refine ih _ (q :: visited) ?_ w h2
            intro x hx
            rcases List.mem_append.mp hx with hx1 | hx2
            · exact hq x (List.mem_cons_of_mem q hx1)
            · exact hcl q (hq q (List.mem_cons_self q qs)) nd hg x
                (List.mem_filter.mp hx2).1

/-- The expansion step — appending the linked template block, pointing the
instance at the root and slotting the stashed usage children, whichever
branch the slot search takes — preserves the tree-shape invariants. -/
theorem storeInv_expandStep {st : List SNode} {instanceIdx : Nat}
    {block : List SNode} {usage : List Nat} (hinv : StoreInv st)
    (pre : ExpandPre st instanceIdx block usage) (fuel : Nat) :
    StoreInv (expandStep fuel st instanceIdx block usage).1 := by
  have hS3inv : StoreInv (postAppendStore st instanceIdx block) :=
    storeInv_postAppend hinv pre
  have hS3len := postAppendStore_length st instanceIdx block
  have hblen : 0 < block.length := List.length_pos.mpr pre.block_ne
  obtain ⟨el, hel⟩ := get?_some_of_lt pre.inst_lt
  have hg0 : (postAppendStore st instanceIdx block).get? instanceIdx
      = some { el with children := [st.length] } :=
    postAppendStore_get_inst st instanceIdx block el hel
  have husage_lt3 : ∀ u ∈ usage, u < (postAppendStore st instanceIdx block).length := by
    intro u hu
    rw [hS3len]
    have := pre.usage_lt u hu
    omega
  have hupar3 : ∀ u ∈ usage,
      ((postAppendStore st instanceIdx block).get? u).map SNode.parent = some none := by
    intro u hu
    rw [postAppendStore_parent_old st instanceIdx block u (pre.usage_lt u hu)]
    exact pre.usage_unparented u hu
  have hnoreach3 : ∀ w, st.length ≤ w → ∀ u ∈ usage,
      ¬ Relation.ReflTransGen (childEdge (postAppendStore st instanceIdx block)) u w := by
    intro w hw u hu h
    exact pre.usage_noreach u hu
      (postAppend_reach_cross hinv pre h (pre.usage_lt u hu) hw)
  have hES : expandStep fuel st instanceIdx block usage
      = slotKryUsageChildren fuel (postAppendStore st instanceIdx block)
          instanceIdx usage := rfl
  rw [hES]
  by_cases hemp : usage.isEmpty = true
  · unfold slotKryUsageChildren
    rw [if_pos hemp]
    exact hS3inv
  · have hempty : usage.isEmpty = false := by
      cases h2 : usage.isEmpty
      · rfl
      · exact absurd h2 hemp
    unfold slotKryUsageChildren
    simp only [hempty, Bool.false_eq_true, if_false, hg0, List.head?_cons,
      Option.some_bind']
    cases hfind : findSlotElement (postAppendStore st instanceIdx block) fuel
        [st.length] [] with
    | some w =>
      have hwP : st.length ≤ w ∧ w < (postAppendStore st instanceIdx block).length := by
        refine findSlotElement_closed (postAppendStore st instanceIdx block)
          (fun x => st.length ≤ x ∧ x < (postAppendStore st instanceIdx block).length)
          ?_ fuel [st.length] [] ?_ w hfind
        · intro q hq nd hget c hc
          rw [postAppendStore_get_block st instanceIdx block pre.inst_lt q hq.1] at hget
          have hk := get?_lt_of_some hget
          have := pre.block_fwd (q - st.length) hk c
            (by rw [getD_eq_of_get? hget]; exact hc)
          rw [hS3len]
          omega
        · intro q hq
          have : q = st.length := by simpa using hq
          subst this
          rw [hS3len]
          omega
      exact storeInv_attach (postAppendStore st instanceIdx block) hS3inv w usage
        hwP.2 husage_lt3 hupar3 pre.usage_nodup (hnoreach3 w hwP.1)
    | none =>
      show StoreInv
        (if ((postAppendStore st instanceIdx block).get? st.length).map SNode.etype
            = some ElemType.container then
          (usage.foldl (fun acc u => setParentTo acc u st.length)
            (appendChildrenTo (postAppendStore st instanceIdx block) st.length usage),
           false)
        else (postAppendStore st instanceIdx block, true)).1
      by_cases hcont : ((postAppendStore st instanceIdx block).get? st.length).map
          SNode.etype = some ElemType.container
      · rw [if_pos hcont]
        refine storeInv_attach (postAppendStore st instanceIdx block) hS3inv st.length
          usage ?_ husage_lt3 hupar3 pre.usage_nodup (hnoreach3 st.length le_rfl)
        rw [hS3len]
        omega
      · rw [if_neg hcont]
        exact hS3inv

/-- C1 (amended): for documents whose resolved child references point
strictly forward and reference each element at most once — in one child slot
of one parent, which is what the KRB compiler emits; the source itself
checks neither — the full finalization establishes the claimed invariants.
After linking, a node's Parent pointer names exactly the parents whose
children list contains it (so every non-root node has exactly one parent and
no node appears under two parents), the relation is acyclic, every children
list is duplicate-free, and the declared roots are exactly the parent-less
elements; the linked arena satisfies the StoreInv bundle of those
invariants; and every component-expansion step — appending an internally
linked template block, pointing the instance at the template root and
slotting the stashed usage children, whichever branch the slot search takes
— preserves StoreInv, so the invariants still hold when
finalizeTreeStructureAndRoots finally declares the parent-less nodes
roots. -/
theorem finalizeTree_invariants (d : KrbDoc)
    (hfwd : ∀ i, i < d.elementCount → ∀ j ∈ linkChildrenOf d i,
      i < j ∧ j < d.elementCount)
    (huniq : ∀ i₁, i₁ < d.elementCount → ∀ i₂, i₂ < d.elementCount →
      ∀ p₁, p₁ < (linkChildrenOf d i₁).length →
      ∀ p₂, p₂ < (linkChildrenOf d i₂).length →
      (linkChildrenOf d i₁).get? p₁ = (linkChildrenOf d i₂).get? p₂ →
      i₁ = i₂)
    (huniqPos : ∀ i₁, i₁ < d.elementCount → ∀ i₂, i₂ < d.elementCount →
      ∀ p₁, p₁ < (linkChildrenOf d i₁).length →
      ∀ p₂, p₂ < (linkChildrenOf d i₂).length →
      (linkChildrenOf d i₁).get? p₁ = (linkChildrenOf d i₂).get? p₂ →
      p₁ = p₂) :
    ((∀ j i, linkParentOf d j = some i ↔ j ∈ linkChildrenOf d i) ∧
     (∀ j, ¬ Relation.TransGen (linkEdge d) j j) ∧
     (∀ i, (linkChildrenOf d i).Nodup) ∧
     (∀ j, j < d.elementCount → (j ∈ finalizeRoots d ↔ linkParentOf d j = none))) ∧
    StoreInv (linkedStore d) ∧
    (∀ (fuel : Nat) (st : List SNode) (instanceIdx : Nat) (block : List SNode)
      (usage : List Nat), StoreInv st → ExpandPre st instanceIdx block usage →
      StoreInv (expandStep fuel st instanceIdx block usage).1) := by
  have huniq' : ∀ i₁, i₁ < d.elementCount → ∀ i₂, i₂ < d.elementCount →
      ∀ j ∈ linkChildrenOf d i₁, j ∈ linkChildrenOf d i₂ → i₁ = i₂ := by
    intro i₁ h₁ i₂ h₂ j hj₁ hj₂
    obtain ⟨p₁, hp₁⟩ := List.mem_iff_get?.mp hj₁
    obtain ⟨p₂, hp₂⟩ := List.mem_iff_get?.mp hj₂
    obtain ⟨hb₁, -⟩ := List.get?_eq_some.mp hp₁
    obtain ⟨hb₂, -⟩ := List.get?_eq_some.mp hp₂
    exact huniq i₁ h₁ i₂ h₂ p₁ hb₁ p₂ hb₂ (hp₁.trans hp₂.symm)
  have hlink := linkInvariants d hfwd huniq'
  have hnodup : ∀ i, (linkChildrenOf d i).Nodup := by
    intro i
    by_cases hi : i < d.elementCount
    · rw [List.nodup_iff_injective_get]
      rintro ⟨p₁, hb₁⟩ ⟨p₂, hb₂⟩ heq
      have hp₁ := List.get?_eq_get (l := linkChildrenOf d i) hb₁
      have hp₂ := List.get?_eq_get (l := linkChildrenOf d i) hb₂
      have : (linkChildrenOf d i).get? p₁ = (linkChildrenOf d i).get? p₂ := by
        rw [hp₁, hp₂, heq]
      have h12 := huniqPos i hi i hi p₁ hb₁ p₂ hb₂ this
      exact Fin.ext h12
    · unfold linkChildrenOf
      rw [if_neg (fun hc => hi hc.1)]
      exact List.nodup_nil
  have hstore : StoreInv (linkedStore d) := by
    constructor
    · intro i nd hget c hc
      have hi : i < d.elementCount := by
        have := get?_lt_of_some hget
        rw [linkedStore_length] at this
        exact this
      rw [linkedStore_get d i hi] at hget
      cases hget
      rw [linkedStore_length]
      exact (hfwd i hi c hc).2
    · intro i j
      by_cases hj : j < d.elementCount
      · rw [linkedStore_get d j hj]
        constructor
        · rintro ⟨nd, hget, hmem⟩
          have hi : i < d.elementCount := by
            have := get?_lt_of_some hget
            rw [linkedStore_length] at this
            exact this
          rw [linkedStore_get d i hi] at hget
          cases hget
          have := (hlink.1 j i).mpr hmem
          simpa using this
        · intro h
          have hp : linkParentOf d j = some i := by simpa using h
          have hmem := (hlink.1 j i).mp hp
          have hi : i < d.elementCount := mem_linkChildrenOf_lt d i j hmem
          exact ⟨_, linkedStore_get d i hi, hmem⟩
      · rw [linkedStore_get_none d j (by omega)]
        constructor
        · rintro ⟨nd, hget, hmem⟩
          have hi : i < d.elementCount := by
            have := get?_lt_of_some hget
            rw [linkedStore_length] at this
            exact this
          rw [linkedStore_get d i hi] at hget
          cases hget
          exact absurd (hfwd i hi j hmem).2 (by omega)
        · intro h
          exact absurd h (by simp)
    · intro i nd hget
      have hi : i < d.elementCount := by
        have := get?_lt_of_some hget
        rw [linkedStore_length] at this
        exact this
      rw [linkedStore_get d i hi] at hget
      cases hget
      exact hnodup i
    · intro x htg
      refine hlink.2.1 x (Relation.TransGen.mono ?_ htg)
      rintro a b ⟨nd, hget, hmem⟩
      have ha : a < d.elementCount := by
        have := get?_lt_of_some hget
        rw [linkedStore_length] at this
        exact this
      rw [linkedStore_get d a ha] at hget
      cases hget
      exact hmem
  exact ⟨⟨hlink.1, hlink.2.1, hnodup, hlink.2.2⟩, hstore,
    fun fuel st instanceIdx block usage hst hpre =>
      storeInv_expandStep hst hpre fuel⟩

/-- The C1 witness document: element 0 (offset 0) links elements 1 and 2;
element 2 is a component-instance placeholder whose single child reference
resolves to element 3 and is stashed, so element 3 is parent-less after
linking. -/
def expandDemoDoc : KrbDoc :=
  ⟨4, [0, 10, 20, 30], [[10, 20], [], [10], []], [false, false, true, false]⟩

/-- The C1 witness template block: a container root (global index 4, parent
= the instance 2) over a children_host slot (global index 5). -/
def expandDemoBlock : List SNode :=
  [⟨"tpl_root", .container, 0, [5], some 2, visInit expandInitialTextAlignment⟩,
   ⟨"children_host", .container, 0, [], some 4, visInit expandInitialTextAlignment⟩]

/-- Witness for C1 on expandDemoDoc: linking gives element 1 the unique
parent 0, and after the expansion step the slotted usage child 3 sits in the
slot's children list (via the preserved parent-membership invariant) and the
preserved acyclicity rules out a cycle at the instance. -/
theorem finalizeTree_invariants_witness :
    linkParentOf expandDemoDoc 1 = some 0 ∧
    childEdge (expandStep 10 (linkedStore expandDemoDoc) 2 expandDemoBlock [3]).1 5 3 ∧
    ¬ Relation.TransGen
      (childEdge (expandStep 10 (linkedStore expandDemoDoc) 2 expandDemoBlock [3]).1)
      2 2 := by
  have h := finalizeTree_invariants expandDemoDoc (by decide) (by decide) (by decide)
  have hpre : ExpandPre (linkedStore expandDemoDoc) 2 expandDemoBlock [3] := by
    refine ⟨by decide, by decide, by decide, by decide, by decide, by decide,
      by decide, by decide, by decide, by decide, by decide, ?_⟩
    intro u hu
    have hu3 : u = 3 := by simpa using hu
    subst hu3
    exact not_reach_of_no_children (linkedStore expandDemoDoc) 3 (by decide) 2
      (by decide)
  have hres := h.2.2 10 (linkedStore expandDemoDoc) 2 expandDemoBlock [3] h.2.1 hpre
  exact ⟨(h.1.1 1 0).mpr (by decide), (hres.parentIff 5 3).mpr (by decide),
    hres.acyclic 2⟩
